import Mathlib

/-!
Verification development for the 5D-chess engine core
(move generator `src/lib/prelude/gen/piece.rs`, JSON parse pipeline
`src/lib/parse.rs`, timed iterator filters `src/lib/prelude/time.rs`).

The piece, coordinate and tile primitives and the `Move` constructor live in
source files that are not part of the supplied sources; those definitions are
modelled from the specification and are marked as such in their doc comments.
Everything else is a direct translation of the Rust source.
-/

/-- 4-dimensional coordinates (layer, time, x, y), translated from the
    `Coords(l, t, x, y)` tuple struct.  The source uses small signed machine
    integers; board dimensions are tiny, so we model them as `Int`. -/
structure Coords where
  l : Int
  t : Int
  x : Int
  y : Int
deriving DecidableEq, Repr

instance : Add Coords := ⟨fun a b => ⟨a.l + b.l, a.t + b.t, a.x + b.x, a.y + b.y⟩⟩

instance : Sub Coords := ⟨fun a b => ⟨a.l - b.l, a.t - b.t, a.x - b.x, a.y - b.y⟩⟩

/-- Scalar multiplication of a coordinate vector, translating `Coords * isize`. -/
def Coords.scale (c : Coords) (n : Int) : Coords :=
  ⟨c.l * n, c.t * n, c.x * n, c.y * n⟩

/-- The physical projection `(x, y)` of a 4D coordinate. -/
def Coords.physical (c : Coords) : Int × Int := (c.x, c.y)

/-- Piece kinds of the base game, translated from `PieceKind`. -/
inductive PieceKind where
  | pawn | knight | bishop | rook | queen | king
  | unicorn | dragon | princess | brawn | commonKing | royalQueen
deriving DecidableEq, Repr

/-- A piece: kind, color and moved flag, translated from `Piece`. -/
structure Piece where
  kind : PieceKind
  white : Bool
  moved : Bool
deriving DecidableEq, Repr

/-- A tile of a board, translated from `Tile`. -/
inductive Tile where
  | piece (p : Piece)
  | blank
  | void
deriving DecidableEq, Repr

/-- Modelled from the spec: `Tile::is_blank` is true exactly on `Blank`. -/
def Tile.isBlank : Tile → Bool
  | .blank => true
  | _ => false

/-- Modelled from the spec: `Tile::is_piece_of_color(c)` is true exactly on a
    piece whose `white` field equals `c`. -/
def Tile.isPieceOfColor (t : Tile) (white : Bool) : Bool :=
  match t with
  | .piece p => p.white == white
  | _ => false

/-- Modelled from the spec: `Tile::is_empty` holds on a blank tile. -/
def Tile.isEmpty : Tile → Bool
  | .blank => true
  | _ => false

/-- Modelled from the spec: en-passant capable pieces are Pawn and Brawn. -/
def Piece.canEnpassant (p : Piece) : Bool :=
  p.kind == .pawn || p.kind == .brawn

/-- Modelled from the spec: kickstart-capable (pawnlike) pieces are Pawn and Brawn. -/
def Piece.canKickstart (p : Piece) : Bool :=
  p.kind == .pawn || p.kind == .brawn

/-- Modelled from the spec: castle-capable pieces are exactly the King. -/
def Piece.canCastle (p : Piece) : Bool :=
  p.kind == .king

/-- A move of a single piece.  The source `Move` also carries a move-kind tag
    computed from the two endpoints; it is determined by `src`/`dst` and the
    game state, so it is omitted here. -/
structure Move where
  src : Coords
  dst : Coords
deriving DecidableEq, Repr

/-- Modelled from the spec: `Move::new(game, partial_game, from, to)` (source
    not included) constructs the move, failing iff the destination tile is
    Void (spec §4.3: "Invalid if destination tile is Void (including
    off-board)").  The combined `PartialGame::get_with_game` view of the game
    is modelled as a function `g : Coords → Tile`. -/
def Move.new (g : Coords → Tile) (src dst : Coords) : Option Move :=
  if g dst = Tile.void then none else some ⟨src, dst⟩

/-- Translated from `fn forward(a, b, color)`: add the delta for white,
    subtract it for black. -/
def forward (a b : Coords) (color : Bool) : Coords :=
  if color then a + b else a - b

/-- One iteration of the `// Forward move` loop of `PawnIter::new`: the
    single forward step (when the destination is blank) together with the
    kickstart double step (when the piece has not moved and the further
    square is blank).  `none` models the `?` propagation of `Move::new`. -/
def pawnForward (g : Coords → Tile) (p : Piece) (c : Coords) (perm : Coords) :
    Option (List Move) :=
  if (g (forward c perm p.white)).isBlank then
    match Move.new g c (forward c perm p.white) with
    | none => none
    | some m =>
      if !p.moved && (g (forward c (perm.scale 2) p.white)).isBlank then
        match Move.new g c (forward c (perm.scale 2) p.white) with
        | none => none
        | some m2 => some [m, m2]
      else some [m]
  else some []

/-- The capture move deltas of `PawnIter::new`: the brawn's eight-direction
    set, the pawn's four-direction set. -/
def capturePerms (p : Piece) : List Coords :=
  if p.kind == PieceKind.brawn then
    [⟨0, 0, 1, 1⟩, ⟨0, 0, -1, 1⟩, ⟨0, -1, 0, 1⟩, ⟨1, 0, 0, 1⟩,
     ⟨1, 1, 0, 0⟩, ⟨1, -1, 0, 0⟩, ⟨1, 0, 1, 0⟩, ⟨1, 0, -1, 0⟩]
  else
    [⟨0, 0, 1, 1⟩, ⟨0, 0, -1, 1⟩, ⟨1, 1, 0, 0⟩, ⟨1, -1, 0, 0⟩]

/-- The `// Captures` loop of `PawnIter::new`: for each capture delta, emit
    the move when the destination holds an enemy piece. -/
def pawnCaptures (g : Coords → Tile) (p : Piece) (c : Coords) :
    List Coords → Option (List Move)
  | [] => some []
  | perm :: rest => do
    let head ←
      if (g (forward c perm p.white)).isPieceOfColor (!p.white) then
        (Move.new g c (forward c perm p.white)).map (fun m => [m])
      else some []
    let tail ← pawnCaptures g p c rest
    some (head ++ tail)

/-- The `// En-passant` branch of `PawnIter::new`.  `bep` models
    `partial_game.get_board_with_game(game, piece.1.non_physical())` followed
    by the `.en_passant` projection: the outer `Option` is the board lookup
    (whose failure propagates through `?`), the inner one the board's
    en-passant field. -/
def pawnEnPassant (g : Coords → Tile) (bep : Option (Option (Int × Int)))
    (p : Piece) (c : Coords) : Option (List Move) :=
  if p.canEnpassant then
    match bep with
    | none => none
    | some none => some []
    | some (some (x, y)) =>
      if (x, y) = (forward c ⟨0, 0, 1, 1⟩ p.white).physical ∨
         (x, y) = (forward c ⟨0, 0, -1, 1⟩ p.white).physical then
        (Move.new g c ⟨c.l, c.t, x, y⟩).map (fun m => [m])
      else some []
  else some []

/-- `PawnIter::new`: the full pawn/brawn move list (forward moves with
    kickstart, captures, en-passant), in source order; `none` when any
    `Move::new` or board lookup fails. -/
def pawnMoves (g : Coords → Tile) (bep : Option (Option (Int × Int)))
    (p : Piece) (c : Coords) : Option (List Move) := do
  let f1 ← pawnForward g p c ⟨0, 0, 0, 1⟩
  let f2 ← pawnForward g p c ⟨1, 0, 0, 0⟩
  let caps ← pawnCaptures g p c (capturePerms p)
  let ep ← pawnEnPassant g bep p c
  some (f1 ++ f2 ++ caps ++ ep)

/-- The move sequence of `RangingPieceIter` along one direction vector,
    starting after distance `dist`.  Translated from
    `RangingPieceIter::next`: Void yields nothing and ends the direction; a
    blank tile emits and continues; an enemy piece emits and — exactly as in
    the source, whose state is not advanced when a move is returned —
    continues to the next distance; an own piece ends the direction.  `fuel`
    bounds the walk (the source iterator is stopped by the Void surrounding
    every finite board). -/
def rangingDir (g : Coords → Tile) (white : Bool) (c d : Coords) :
    Nat → Nat → List Move
  | 0, _ => []
  | fuel + 1, dist =>
    let n := c + d.scale ((dist : Int) + 1)
    match g n with
    | Tile.void => []
    | Tile.blank =>
      match Move.new g c n with
      | some m => m :: rangingDir g white c d fuel (dist + 1)
      | none => []
    | Tile.piece p =>
      if p.white ≠ white then
        match Move.new g c n with
        | some m => m :: rangingDir g white c d fuel (dist + 1)
        | none => []
      else []

/-- The full move sequence of `RangingPieceIter` over its direction list. -/
def rangingMoves (g : Coords → Tile) (white : Bool) (c : Coords)
    (dirs : List Coords) (fuel : Nat) : List Move :=
  dirs.flatMap (fun d => rangingDir g white c d fuel 0)

/-- The move sequence of `OneStepPieceIter`: one square per direction,
    emitted when the destination is blank or holds an enemy piece. -/
def oneStepMoves (g : Coords → Tile) (white : Bool) (c : Coords) :
    List Coords → List Move
  | [] => []
  | d :: rest =>
    let n := c + d
    let res : Option Move :=
      match g n with
      | Tile.void => none
      | Tile.blank => Move.new g c n
      | Tile.piece p => if p.white ≠ white then Move.new g c n else none
    match res with
    | some m => m :: oneStepMoves g white c rest
    | none => oneStepMoves g white c rest

/-- A generator tuple together with its cardinality (number of non-zero
    axes), translated from the five groups of the `PERMUTATIONS` table. -/
def permGroups : List (List (Int × Int × Int × Int) × Nat) :=
  [([(2, 1, 0, 0), (1, 2, 0, 0), (0, 2, 1, 0), (0, 1, 2, 0),
     (0, 0, 2, 1), (0, 0, 1, 2), (1, 0, 0, 2), (2, 0, 0, 1),
     (2, 0, 1, 0), (1, 0, 2, 0), (0, 2, 0, 1), (0, 1, 0, 2)], 2),
   ([(1, 0, 0, 0), (0, 1, 0, 0), (0, 0, 1, 0), (0, 0, 0, 1)], 1),
   ([(1, 1, 0, 0), (0, 1, 1, 0), (0, 0, 1, 1),
     (1, 0, 0, 1), (1, 0, 1, 0), (0, 1, 0, 1)], 2),
   ([(0, 1, 1, 1), (1, 0, 1, 1), (1, 1, 0, 1), (1, 1, 1, 0)], 3),
   ([(1, 1, 1, 1)], 4)]

/-- The inner component walk of the `PERMUTATIONS` builder: for each
    component, negate it when the corresponding bit of `permIndex` is set,
    counting only non-zero components (`o` is the running bit offset). -/
def signComponents : List Int → Nat → Nat → List Int
  | [], _, _ => []
  | i :: rest, permIndex, o =>
    if i ≠ 0 then
      (if (permIndex >>> o) % 2 = 1 then -i else i) ::
        signComponents rest permIndex (o + 1)
    else
      0 :: signComponents rest permIndex o

/-- Repack a four-element component list into a tuple. -/
def toTup (l : List Int) : Int × Int × Int × Int :=
  (l.getD 0 0, l.getD 1 0, l.getD 2 0, l.getD 3 0)

/-- Expansion of one generator group: every generator tuple multiplied out
    over all `2^cardinality` sign combinations, in source order. -/
def expandGroup (group : List (Int × Int × Int × Int)) (card : Nat) :
    List (Int × Int × Int × Int) :=
  group.flatMap (fun e =>
    (List.range (2 ^ card)).map (fun permIndex =>
      toTup (signComponents [e.1, e.2.1, e.2.2.1, e.2.2.2] permIndex 0)))

/-- The `PERMUTATIONS` table: the five expanded permutation sets. -/
def PERMUTATIONS : List (List (Int × Int × Int × Int)) :=
  permGroups.map (fun gc => expandGroup gc.1 gc.2)

/-- `Coords::from` on a direction tuple. -/
def Coords.ofTup (e : Int × Int × Int × Int) : Coords :=
  ⟨e.1, e.2.1, e.2.2.1, e.2.2.2⟩

/-- The direction list handed to the iterator for a given permutation-table
    index, converted to coordinate deltas. -/
def permDirs (i : Nat) : List Coords :=
  (PERMUTATIONS.getD i []).map Coords.ofTup

/-- `PiecePosition::generate_moves`: dispatch on the piece kind, translated
    arm by arm from the source (pawnlike pieces use `PawnIter`, the knight
    `OneStepPieceIter`, every other kind — the king and common king
    included — `RangingPieceIter`). -/
def generateMoves (g : Coords → Tile) (bep : Option (Option (Int × Int)))
    (p : Piece) (c : Coords) (fuel : Nat) : Option (List Move) :=
  match p.kind with
  | .pawn | .brawn => pawnMoves g bep p c
  | .knight => some (oneStepMoves g p.white c (permDirs 0))
  | .rook => some (rangingMoves g p.white c (permDirs 1) fuel)
  | .bishop => some (rangingMoves g p.white c (permDirs 2) fuel)
  | .unicorn => some (rangingMoves g p.white c (permDirs 3) fuel)
  | .dragon => some (rangingMoves g p.white c (permDirs 4) fuel)
  | .princess =>
    some (rangingMoves g p.white c (permDirs 1 ++ permDirs 2) fuel)
  | .queen | .royalQueen =>
    some (rangingMoves g p.white c
      (permDirs 1 ++ permDirs 2 ++ permDirs 3 ++ permDirs 4) fuel)
  | .king | .commonKing =>
    some (rangingMoves g p.white c
      (permDirs 1 ++ permDirs 2 ++ permDirs 3 ++ permDirs 4) fuel)

/-- `PiecePosition::validate_move`: re-enumerate and search for equality. -/
def validateMove (g : Coords → Tile) (bep : Option (Option (Int × Int)))
    (p : Piece) (c : Coords) (fuel : Nat) (mv : Move) : Bool :=
  match generateMoves g bep p c fuel with
  | none => false
  | some ms => (ms.find? (fun m => m == mv)).isSome

/-- Kind-and-color comparison of two tiles as a total specification-level
    predicate (the panic-free core of `cmp_pieces`). -/
def kcEq : Tile → Tile → Bool
  | .piece l, .piece r => l.kind == r.kind && l.white == r.white
  | .blank, .blank => true
  | _, _ => false

/-- `cmp_pieces` from `src/lib/parse.rs`, with the `panic!("Void in board!")`
    branch modelled as an `Except` error. -/
def cmpPieces : Tile → Tile → Except String Bool
  | .piece l, .piece r => .ok (l.kind == r.kind && l.white == r.white)
  | .blank, .blank => .ok true
  | .void, _ => .error "Void in board!"
  | _, .void => .error "Void in board!"
  | _, _ => .ok false

/-- A board as manipulated by the parse pipeline: the flat row-major tile
    grid plus the en-passant and castle marks filled in by the
    reconstruction pass. -/
structure ParseBoard where
  pieces : List Tile
  enPassant : Option (Int × Int)
  castle : Option (Int × Int × Int × Int)
deriving DecidableEq, Repr

/-- Modelled from the spec: `Board::get` (source not included) returns the
    grid tile at `(x, y)` and Void on out-of-range access (§4.1). -/
def ParseBoard.get (b : ParseBoard) (w h : Nat) (x y : Int) : Tile :=
  if 0 ≤ x ∧ x < (w : Int) ∧ 0 ≤ y ∧ y < (h : Int) then
    b.pieces.getD (y.toNat * w + x.toNat) Tile.void
  else Tile.void

/-- The `!cmp_pieces(..) && !cmp_pieces(..)` conjunction of the castling
    detection, with the `&&` short-circuit made explicit: the second
    `cmp_pieces` call happens only when the first returned false. -/
def sideCheck (t1 s1 t2 s2 : Tile) : Except String Bool := do
  let c1 ← cmpPieces t1 s1
  if c1 then pure false
  else do
    let c2 ← cmpPieces t2 s2
    pure (!c2)

/-- The castling-detection conditionals of the reconstruction closure
    (`parse.rs` lines 176-201): each `cmp_pieces` call happens exactly when
    the source performs it. -/
def castleCheck (w h : Nat) (prev board : ParseBoard) (x y : Int) :
    Except String (Option (Int × Int × Int × Int)) := do
  let left ←
    if x > 1 then
      sideCheck (prev.get w h (x - 1) y) (board.get w h (x - 1) y)
        (prev.get w h (x - 2) y) (board.get w h (x - 2) y)
    else pure false
  if left then pure (some (x - 1, y, x - 2, y))
  else do
    let right ←
      if x < (w : Int) - 2 then
        sideCheck (prev.get w h (x + 1) y) (board.get w h (x + 1) y)
          (prev.get w h (x + 2) y) (board.get w h (x + 2) y)
      else pure false
    if right then pure (some (x + 1, y, x + 2, y)) else pure none

/-- The en-passant mark filled in by the reconstruction closure when a
    kickstart-capable piece just moved (`parse.rs` lines 162-173). -/
def epUpdate (w h : Nat) (prev : ParseBoard) (x y : Int) (p' : Piece)
    (board : ParseBoard) : ParseBoard :=
  if p'.canKickstart then
    if p'.white then
      if (prev.get w h x (y - 1)).isEmpty then
        { board with enPassant := some (x, y - 1) }
      else board
    else
      if (prev.get w h x (y + 1)).isEmpty then
        { board with enPassant := some (x, y + 1) }
      else board
  else board

/-- The castle mark filled in by the reconstruction closure when a
    castle-capable piece just moved (`parse.rs` lines 175-201). -/
def castleUpdate (w h : Nat) (prev : ParseBoard) (x y : Int) (p' : Piece)
    (board : ParseBoard) : Except String ParseBoard :=
  if p'.canCastle then do
    let cs ← castleCheck w h prev board x y
    match cs with
    | some c => pure { board with castle := some c }
    | none => pure board
  else pure board

/-- The changed-square branch of the reconstruction closure (`parse.rs`
    lines 156-208): the piece is marked moved, the en-passant and castle
    marks are filled in for kickstart- and castle-capable pieces, and the
    state is updated to the new tile. -/
def stepSquareDiff (w h : Nat) (prev : ParseBoard) (index : Nat)
    (state : List Tile) (board : ParseBoard) :
    Tile → Except String (List Tile × ParseBoard)
  | Tile.piece p => do
    let x : Int := (index % w : Nat)
    let y : Int := (index / w : Nat)
    let p' := { p with moved := true }
    let board2 ← castleUpdate w h prev x y p' (epUpdate w h prev x y p' board)
    .ok (state.set index (Tile.piece p'),
      { board2 with pieces := board2.pieces.set index (Tile.piece p') })
  | bt' => .ok (state.set index bt', board)

/-- The body of the reconstruction closure for one square (`parse.rs` lines
    143-208): when the square's (kind, color) matches the running state the
    piece inherits the state's moved flag; otherwise the changed-square
    branch applies. -/
def stepSquare (w h : Nat) (prev : ParseBoard) (index : Nat)
    (state : List Tile) (board : ParseBoard) :
    Except String (List Tile × ParseBoard) := do
  let bt := board.pieces.getD index Tile.void
  let st := state.getD index Tile.void
  let same ← cmpPieces bt st
  if same then
    match bt, st with
    | Tile.piece p, Tile.piece q =>
      .ok (state,
        { board with pieces := board.pieces.set index (Tile.piece { p with moved := q.moved }) })
    | _, _ => .ok (state, board)
  else
    stepSquareDiff w h prev index state board bt

/-- The reconstruction closure applied to every square of one board, in
    index order (`for index in 0..board_size`). -/
def stepBoardAux (w h : Nat) (prev : ParseBoard) :
    List Nat → List Tile → ParseBoard → Except String (List Tile × ParseBoard)
  | [], st, b => .ok (st, b)
  | i :: rest, st, b => do
    let r ← stepSquare w h prev i st b
    stepBoardAux w h prev rest r.1 r.2

/-- One application of the reconstruction closure to a whole board. -/
def stepBoard (w h : Nat) (prev : ParseBoard) (st : List Tile)
    (b : ParseBoard) : Except String (List Tile × ParseBoard) :=
  stepBoardAux w h prev (List.range (w * h)) st b

/-- The `initial_state` construction of `parse` (lines 116-134) on one
    square: the tile with the piece's moved flag cleared; Void inside the
    grid is the second `panic!("Void in board!")` site. -/
def initialTile : Tile → Except String Tile
  | Tile.piece p => .ok (Tile.piece { p with moved := false })
  | Tile.blank => .ok Tile.blank
  | Tile.void => .error "Void in board!"

/-- The `initial_state` loop over a list of square indices. -/
def initialStateAux (b : ParseBoard) : List Nat → Except String (List Tile)
  | [] => .ok []
  | i :: rest => do
    let t ← initialTile (b.pieces.getD i Tile.void)
    let r ← initialStateAux b rest
    .ok (t :: r)

/-- The `initial_state` construction of `parse`: the first board with every
    piece's moved flag cleared, walked over `0..board_size`. -/
def initialState (size : Nat) (b : ParseBoard) : Except String (List Tile) :=
  initialStateAux b (List.range size)

/-- The walk of the reconstruction accumulator along the boards of one
    timeline, threading `(state, previous_board)` exactly as the closure
    does. -/
def reconAux (w h : Nat) :
    List Tile → ParseBoard → List ParseBoard → Except String (List ParseBoard)
  | _, _, [] => .ok []
  | st, prev, b :: rest => do
    let r ← stepBoard w h prev st b
    let rest' ← reconAux w h r.1 r.2 rest
    .ok (r.2 :: rest')

/-- Modelled from the spec: `bubble_down_mut` (src/lib/traversal.rs, not
    included) "walks forward from each initial_board_indices timeline";
    modelled as the straight-line fold of the reconstruction closure over the
    timeline's boards, starting at the first board with the cleared
    `initial_state` and the first board itself as accumulator (`parse.rs`
    lines 136-214). -/
def reconstruct (w h : Nat) (boards : List ParseBoard) :
    Except String (List ParseBoard) :=
  match boards with
  | [] => .ok []
  | b0 :: _ => do
    let st0 ← initialState (w * h) b0
    reconAux w h st0 b0 boards

/-- `de_piece` from `src/lib/parse.rs`: the integer piece encoding; any
    unknown value is a blank square. -/
def de_piece (raw : Nat) : Tile :=
  match raw with
  | 1 => Tile.piece ⟨.pawn, true, true⟩
  | 2 => Tile.piece ⟨.knight, true, true⟩
  | 3 => Tile.piece ⟨.bishop, true, true⟩
  | 4 => Tile.piece ⟨.rook, true, true⟩
  | 5 => Tile.piece ⟨.queen, true, true⟩
  | 6 => Tile.piece ⟨.king, true, true⟩
  | 7 => Tile.piece ⟨.unicorn, true, true⟩
  | 8 => Tile.piece ⟨.dragon, true, true⟩
  | 9 => Tile.piece ⟨.princess, true, true⟩
  | 10 => Tile.piece ⟨.brawn, true, true⟩
  | 11 => Tile.piece ⟨.commonKing, true, true⟩
  | 12 => Tile.piece ⟨.royalQueen, true, true⟩
  | 33 => Tile.piece ⟨.pawn, false, true⟩
  | 34 => Tile.piece ⟨.knight, false, true⟩
  | 35 => Tile.piece ⟨.bishop, false, true⟩
  | 36 => Tile.piece ⟨.rook, false, true⟩
  | 37 => Tile.piece ⟨.queen, false, true⟩
  | 38 => Tile.piece ⟨.king, false, true⟩
  | 39 => Tile.piece ⟨.unicorn, false, true⟩
  | 40 => Tile.piece ⟨.dragon, false, true⟩
  | 41 => Tile.piece ⟨.princess, false, true⟩
  | 42 => Tile.piece ⟨.brawn, false, true⟩
  | 43 => Tile.piece ⟨.commonKing, false, true⟩
  | 44 => Tile.piece ⟨.royalQueen, false, true⟩
  | _ => Tile.blank

/-- The board grids a timeline's raw states deserialize to, before the
    moved-flag reconstruction (`parse.rs` lines 84-104). -/
def deserializeBoards (states : List (List Nat)) : List ParseBoard :=
  states.map (fun raw => ⟨raw.map de_piece, none, none⟩)

/-- The parse pipeline restricted to one timeline: deserialize every board,
    then run the moved-flag reconstruction exactly when the timeline is
    listed in `initial_board_indices`. -/
def parseTimeline (w h : Nat) (listed : Bool) (states : List (List Nat)) :
    Except String (List ParseBoard) :=
  let boards := deserializeBoards states
  if listed then reconstruct w h boards else .ok boards

/-- The header dispatch of `parse_pgn` (`parse.rs` lines 420-499), reduced to
    the decision it makes: with a `board` header equal to `custom` (case
    insensitively) the FEN path is taken; with a variants directory and a
    well-formed variant name the variant path is attempted; otherwise the
    source executes `unimplemented!()`, an unrecoverable panic. -/
inductive PgnDispatch where
  | customPath
  | variantPath
  | panicUnimplemented
deriving DecidableEq, Repr

/-- The outcome of the `parse_pgn` header dispatch for a given `board` header
    and presence of a variants directory (`variantNameOk` abstracts the
    `^[a-zA-Z \-]+$` regex test on the header value). -/
def parsePgnDispatch (boardHeader : Option String)
    (variantsProvided : Bool) (variantNameOk : Bool) : PgnDispatch :=
  if boardHeader.map (fun s => s.toLower) = some "custom" then
    PgnDispatch.customPath
  else if variantsProvided ∧ boardHeader.isSome ∧ variantNameOk then
    PgnDispatch.variantPath
  else PgnDispatch.panicUnimplemented

/-- `TimedFilter` (`src/lib/prelude/time.rs`): the remaining elements of the
    underlying iterator, the filter condition, whether the first pull already
    happened (with the count of clock readings consumed so far), and the
    duration bound.  Clock readings are modelled, as real-time must be, by an
    input sequence: `e k` is the value of the k-th `start.elapsed()` call. -/
structure TimedFilterM (α : Type) where
  iterator : List α
  condition : α → Bool
  start : Option Nat
  duration : Nat

/-- The loop of `TimedFilter::next`: check the elapsed reading against the
    bound, then pull the underlying iterator, yielding the first element
    satisfying the condition.  Returns the yielded element, the remaining
    iterator and the next clock-reading index. -/
def timedNextLoop {α : Type} (cond : α → Bool) (dur : Nat) (e : Nat → Nat) :
    List α → Nat → Option α × List α × Nat
  | items, k =>
    if e k > dur then (none, items, k + 1)
    else
      match items with
      | [] => (none, [], k + 1)
      | a :: rest =>
        if cond a then (some a, rest, k + 1)
        else timedNextLoop cond dur e rest (k + 1)

/-- `TimedFilter::next`: start the clock on the first call, then run the
    loop. -/
def TimedFilterM.next {α : Type} (f : TimedFilterM α) (e : Nat → Nat) :
    Option α × TimedFilterM α :=
  let k0 := f.start.getD 0
  let r := timedNextLoop f.condition f.duration e f.iterator k0
  (r.1, { f with iterator := r.2.1, start := some r.2.2 })

/-- `SigmaFilter` (`src/lib/prelude/time.rs`): like `TimedFilter` but
    accumulating the filter callback's time into `sigma`. -/
structure SigmaFilterM (α : Type) where
  iterator : List α
  condition : α → Bool
  sigma : Nat
  duration : Nat

/-- The loop of `SigmaFilter::next`: check `sigma + start.elapsed()` against
    the bound before each pull. -/
def sigmaNextLoop {α : Type} (cond : α → Bool) (dur sigma : Nat)
    (e : Nat → Nat) : List α → Nat → Option α × List α × Nat
  | items, k =>
    if sigma + e k > dur then (none, items, k + 1)
    else
      match items with
      | [] => (none, [], k + 1)
      | a :: rest =>
        if cond a then (some a, rest, k + 1)
        else sigmaNextLoop cond dur sigma e rest (k + 1)

/-- `SigmaFilter::next`: run the loop, then add this call's elapsed reading
    to `sigma`. -/
def SigmaFilterM.next {α : Type} (f : SigmaFilterM α) (e : Nat → Nat) :
    Option α × SigmaFilterM α :=
  let r := sigmaNextLoop f.condition f.duration f.sigma e f.iterator 0
  (r.1, { f with iterator := r.2.1, sigma := f.sigma + e r.2.2 })

/-! ## Concrete game-state functions used by counterexamples and witnesses -/

/-- A lone white king at the origin with two blank squares along the
    (Δx, Δy) = (1, 1) diagonal and Void everywhere else. -/
def gKing : Coords → Tile := fun c =>
  if c = ⟨0, 0, 0, 0⟩ then Tile.piece ⟨.king, true, true⟩
  else if c = ⟨0, 0, 1, 1⟩ then Tile.blank
  else if c = ⟨0, 0, 2, 2⟩ then Tile.blank
  else Tile.void

/-- A lone white rook at the origin, a black pawn one square up the y axis,
    a blank square behind the pawn, Void everywhere else. -/
def gRook : Coords → Tile := fun c =>
  if c = ⟨0, 0, 0, 0⟩ then Tile.piece ⟨.rook, true, true⟩
  else if c = ⟨0, 0, 0, 1⟩ then Tile.piece ⟨.pawn, false, true⟩
  else if c = ⟨0, 0, 0, 2⟩ then Tile.blank
  else Tile.void

/-- A white pawn at (0,0,1,1) whose board's en-passant square (2,2) holds a
    white rook, Void everywhere else. -/
def gPawnEp : Coords → Tile := fun c =>
  if c = ⟨0, 0, 1, 1⟩ then Tile.piece ⟨.pawn, true, true⟩
  else if c = ⟨0, 0, 2, 2⟩ then Tile.piece ⟨.rook, true, true⟩
  else Tile.void

/-- A white pawn at the origin with a blank square one step forward in T and
    Void everywhere else (in particular at one step forward in y and in L). -/
def gPawnT : Coords → Tile := fun c =>
  if c = ⟨0, 0, 0, 0⟩ then Tile.piece ⟨.pawn, true, true⟩
  else if c = ⟨0, 1, 0, 0⟩ then Tile.blank
  else Tile.void

/-- A lone white knight at the origin with one blank knight-destination at
    (ΔL, ΔT) = (2, 1) and Void everywhere else. -/
def gKnight : Coords → Tile := fun c =>
  if c = ⟨0, 0, 0, 0⟩ then Tile.piece ⟨.knight, true, true⟩
  else if c = ⟨2, 1, 0, 0⟩ then Tile.blank
  else Tile.void

/-! ## C1 -/

/-- C1: the claim says a King or CommonKing position yields at most the
    distance-one square along each direction.  The code is wrong: the
    King/CommonKing arm of `generate_moves` builds a `RangingPieceIter`
    (piece.rs lines 373-386), not a `OneStepPieceIter`, so a king slides to
    any distance.  On `gKing` the white king's generated moves contain the
    destination (0,0,2,2) — two steps along the (1,1)-diagonal — which the
    claim forbids; the one-step behaviour is what `OneStepPieceIter`'s own
    doc comment ("ie. knights, royal kings") and the test
    `test_standard_d4d5_moves` (e1-king yields only d2) expect. -/
theorem C1_king_slides_distance_two :
    (Move.mk ⟨0, 0, 0, 0⟩ ⟨0, 0, 2, 2⟩) ∈
      (generateMoves gKing none ⟨.king, true, true⟩ ⟨0, 0, 0, 0⟩ 2).getD [] ∧
    (⟨0, 0, 2, 2⟩ : Coords) = (⟨0, 0, 0, 0⟩ : Coords) + Coords.scale ⟨0, 0, 1, 1⟩ 2 := by
  constructor
  · decide
  · decide

/-! ## C2 -/

/-- C2: the claim says a ranging direction stops for good after the move
    onto an enemy piece is emitted.  The code is wrong: when
    `RangingPieceIter::next` returns an emitted move it does not advance its
    direction state (piece.rs lines 211-214), so after the capture it keeps
    walking the same direction.  On `gRook` the white rook both captures the
    black pawn at distance 1 and is offered the blank square at distance 2
    behind that pawn, along the same (0,0,0,1) direction. -/
theorem C2_ranging_continues_past_enemy :
    (Move.mk ⟨0, 0, 0, 0⟩ ⟨0, 0, 0, 1⟩) ∈
      (generateMoves gRook none ⟨.rook, true, true⟩ ⟨0, 0, 0, 0⟩ 3).getD [] ∧
    (Move.mk ⟨0, 0, 0, 0⟩ ⟨0, 0, 0, 2⟩) ∈
      (generateMoves gRook none ⟨.rook, true, true⟩ ⟨0, 0, 0, 0⟩ 3).getD [] ∧
    (gRook ⟨0, 0, 0, 1⟩).isPieceOfColor false = true := by
  refine ⟨by decide, by decide, by decide⟩

/-! ## C6 -/

/-- C6, counterexample: the claim says the `PERMUTATIONS` table entries (the
    sets obtained after multiplying out all sign combinations) have
    cardinalities 12, 4, 6, 4, 1.  Those are the sizes of the *generator*
    lists; the expanded table entries have sizes 48, 8, 24, 32 and 16. -/
theorem C6_permutation_sizes_not_generator_sizes :
    ¬ ((PERMUTATIONS.getD 0 []).length = 12 ∧
       (PERMUTATIONS.getD 1 []).length = 4 ∧
       (PERMUTATIONS.getD 2 []).length = 6 ∧
       (PERMUTATIONS.getD 3 []).length = 4 ∧
       (PERMUTATIONS.getD 4 []).length = 1) := by
  decide

/-- C6, amended: the five generator lists (Knight, Rook, Bishop, Unicorn,
    Dragon) have 12, 4, 6, 4 and 1 tuples; after multiplying out all sign
    combinations on the non-zero axes the `PERMUTATIONS` entries have
    12·2², 4·2¹, 6·2², 4·2³ and 1·2⁴ = 48, 8, 24, 32 and 16 elements. -/
theorem C6_generator_and_expanded_sizes :
    permGroups.map (fun gc => gc.1.length) = [12, 4, 6, 4, 1] ∧
    PERMUTATIONS.map List.length = [48, 8, 24, 32, 16] ∧
    PERMUTATIONS.map List.length =
      permGroups.map (fun gc => gc.1.length * 2 ^ gc.2) := by
  refine ⟨by decide, by decide, by decide⟩

/-! ## C10 -/

/-- Every deserialized piece code yields blank or a piece marked moved. -/
theorem de_piece_blank_or_moved (v : Nat) :
    de_piece v = Tile.blank ∨ ∃ p, de_piece v = Tile.piece p ∧ p.moved = true := by
  unfold de_piece
  split
  all_goals first
    | exact Or.inl rfl
    | exact Or.inr ⟨_, rfl, rfl⟩

/-- C10: `de_piece` is total and returns either Blank or a piece with
    `moved = true` (never Void, never a failure); consequently a timeline
    that is not listed in `initial_board_indices` is untouched by the
    reconstruction pass and every piece on its boards keeps `moved = true`. -/
theorem C10_de_piece_total_unlisted_keep_moved :
    (∀ v : Nat, de_piece v = Tile.blank ∨
      ∃ p, de_piece v = Tile.piece p ∧ p.moved = true) ∧
    (∀ w h states bs, parseTimeline w h false states = Except.ok bs →
      ∀ b ∈ bs, ∀ t ∈ b.pieces, ∀ p, t = Tile.piece p → p.moved = true) := by
  refine ⟨de_piece_blank_or_moved, ?_⟩
  intro w h states bs hok b hb t ht p hp
  have hbs : bs = deserializeBoards states := by
    simpa [parseTimeline] using hok.symm
  subst hbs
  rcases List.mem_map.mp hb with ⟨raw, _, rfl⟩
  rcases List.mem_map.mp ht with ⟨v, _, rfl⟩
  rcases de_piece_blank_or_moved v with hblank | ⟨q, hq, hmq⟩
  · rw [hblank] at hp
    exact absurd hp (by simp)
  · rw [hq] at hp
    cases hp
    exact hmq

/-- C10, witness: the pawn of the unlisted one-board timeline `[[1]]` keeps
    its moved flag. -/
theorem C10_witness : (⟨PieceKind.pawn, true, true⟩ : Piece).moved = true :=
  C10_de_piece_total_unlisted_keep_moved.2 1 1 [[1]] (deserializeBoards [[1]])
    rfl ⟨[Tile.piece ⟨.pawn, true, true⟩], none, none⟩ (by decide)
    (Tile.piece ⟨.pawn, true, true⟩) (by decide) ⟨.pawn, true, true⟩ rfl

/-! ## C5 -/

/-- C5: `validate_move` returns true iff the move occurs in the sequence
    produced by `generate_moves`; in particular every generated move
    validates. -/
theorem C5_validate_iff_generated :
    ∀ (g : Coords → Tile) (bep : Option (Option (Int × Int))) (p : Piece)
      (c : Coords) (fuel : Nat) (mv : Move),
      (validateMove g bep p c fuel mv = true ↔
        ∃ ms, generateMoves g bep p c fuel = some ms ∧ mv ∈ ms) ∧
      (∀ ms, generateMoves g bep p c fuel = some ms →
        ∀ m ∈ ms, validateMove g bep p c fuel m = true) := by
  intro g bep p c fuel mv
  constructor
  · unfold validateMove
    cases h : generateMoves g bep p c fuel with
    | none => simp
    | some ms => simp [List.find?_isSome, beq_iff_eq]
  · intro ms hms m hm
    unfold validateMove
    rw [hms]
    simp only [List.find?_isSome, beq_iff_eq]
    exact ⟨m, hm, rfl⟩

/-- C5, witness: the single move of a lone knight validates, and the
    equivalence holds at it. -/
theorem C5_witness :
    validateMove gKnight none ⟨.knight, true, true⟩ ⟨0, 0, 0, 0⟩ 1
      (Move.mk ⟨0, 0, 0, 0⟩ ⟨2, 1, 0, 0⟩) = true :=
  (C5_validate_iff_generated gKnight none ⟨.knight, true, true⟩ ⟨0, 0, 0, 0⟩ 1
    (Move.mk ⟨0, 0, 0, 0⟩ ⟨2, 1, 0, 0⟩)).2
    [Move.mk ⟨0, 0, 0, 0⟩ ⟨2, 1, 0, 0⟩] (by decide)
    (Move.mk ⟨0, 0, 0, 0⟩ ⟨2, 1, 0, 0⟩) (by decide)

/-! ## C9 -/

/-- An over-budget elapsed reading makes the timed loop return nothing. -/
theorem timedNextLoop_over {α : Type} (cond : α → Bool) (dur : Nat)
    (e : Nat → Nat) (items : List α) (k : Nat) (h : e k > dur) :
    timedNextLoop cond dur e items k = (none, items, k + 1) := by
  cases items <;> simp [timedNextLoop, h]

/-- Characterization of a successful pull from the timed loop: the yielded
    element satisfies the condition, the check preceding it was within
    budget, and it is the first conforming element of the iterator. -/
theorem timedNextLoop_some {α : Type} (cond : α → Bool) (dur : Nat)
    (e : Nat → Nat) :
    ∀ (items : List α) (k : Nat) (a : α) (rest : List α) (k' : Nat),
      timedNextLoop cond dur e items k = (some a, rest, k') →
      cond a = true ∧ e (k' - 1) ≤ dur ∧
      ∃ pre, items = pre ++ a :: rest ∧ ∀ x ∈ pre, cond x = false := by
  intro items
  induction items with
  | nil =>
    intro k a rest k' h
    by_cases hc : e k > dur <;> simp [timedNextLoop, hc] at h
  | cons b bs ih =>
    intro k a rest k' h
    by_cases hc : e k > dur
    · simp [timedNextLoop, hc] at h
    · by_cases hb : cond b
      · rw [timedNextLoop, if_neg hc] at h
        simp only [hb, if_pos] at h
        have h1 : (some b : Option α) = some a := congrArg (fun r => r.1) h
        have h2 : bs = rest := congrArg (fun r => r.2.1) h
        have h3 : k + 1 = k' := congrArg (fun r => r.2.2) h
        cases h1
        cases h2
        refine ⟨hb, ?_, [], by simp, by intro x hx; cases hx⟩
        have : k' = k + 1 := h3.symm
        subst this
        simp only [Nat.add_sub_cancel]
        omega
      · rw [timedNextLoop, if_neg hc] at h
        simp only [hb, Bool.false_eq_true, if_neg, if_false] at h
        obtain ⟨hca, hek, pre, hpre, hprecond⟩ := ih (k + 1) a rest k' h
        refine ⟨hca, hek, b :: pre, by simp [hpre], ?_⟩
        intro x hx
        rcases List.mem_cons.mp hx with rfl | hx'
        · simpa using hb
        · exact hprecond x hx'

/-- An over-budget sigma check makes the sigma loop return nothing. -/
theorem sigmaNextLoop_over {α : Type} (cond : α → Bool) (dur sigma : Nat)
    (e : Nat → Nat) (items : List α) (k : Nat) (h : sigma + e k > dur) :
    sigmaNextLoop cond dur sigma e items k = (none, items, k + 1) := by
  cases items <;> simp [sigmaNextLoop, h]

/-- Characterization of a successful pull from the sigma loop. -/
theorem sigmaNextLoop_some {α : Type} (cond : α → Bool) (dur sigma : Nat)
    (e : Nat → Nat) :
    ∀ (items : List α) (k : Nat) (a : α) (rest : List α) (k' : Nat),
      sigmaNextLoop cond dur sigma e items k = (some a, rest, k') →
      cond a = true ∧ sigma + e (k' - 1) ≤ dur ∧
      ∃ pre, items = pre ++ a :: rest ∧ ∀ x ∈ pre, cond x = false := by
  intro items
  induction items with
  | nil =>
    intro k a rest k' h
    by_cases hc : sigma + e k > dur <;> simp [sigmaNextLoop, hc] at h
  | cons b bs ih =>
    intro k a rest k' h
    by_cases hc : sigma + e k > dur
    · simp [sigmaNextLoop, hc] at h
    · by_cases hb : cond b
      · rw [sigmaNextLoop, if_neg hc] at h
        simp only [hb, if_pos] at h
        have h1 : (some b : Option α) = some a := congrArg (fun r => r.1) h
        have h2 : bs = rest := congrArg (fun r => r.2.1) h
        have h3 : k + 1 = k' := congrArg (fun r => r.2.2) h
        cases h1
        cases h2
        refine ⟨hb, ?_, [], by simp, by intro x hx; cases hx⟩
        have : k' = k + 1 := h3.symm
        subst this
        simp only [Nat.add_sub_cancel]
        omega
      · rw [sigmaNextLoop, if_neg hc] at h
        simp only [hb, Bool.false_eq_true, if_neg, if_false] at h
        obtain ⟨hca, hek, pre, hpre, hprecond⟩ := ih (k + 1) a rest k' h
        refine ⟨hca, hek, b :: pre, by simp [hpre], ?_⟩
        intro x hx
        rcases List.mem_cons.mp hx with rfl | hx'
        · simpa using hb
        · exact hprecond x hx'

/-- C9: with clock readings modelled as an input sequence `e`, both filters
    yield only elements that satisfy their condition and are drawn in order
    from the underlying iterator (the skipped prefix fails the condition);
    `TimedFilter::next` returns nothing whenever the elapsed reading at its
    check exceeds the duration bound, `SigmaFilter::next` returns nothing
    whenever the accumulated condition time exceeds its bound, and a yielded
    element always passed an in-budget check. -/
theorem C9_filters_respect_budget :
    (∀ (α : Type) (f : TimedFilterM α) (e : Nat → Nat),
      e (f.start.getD 0) > f.duration → (f.next e).1 = none) ∧
    (∀ (α : Type) (f : SigmaFilterM α) (e : Nat → Nat),
      f.sigma > f.duration → (f.next e).1 = none) ∧
    (∀ (α : Type) (cond : α → Bool) (dur : Nat) (e : Nat → Nat)
       (items : List α) (k a rest k'),
      timedNextLoop cond dur e items k = (some a, rest, k') →
      cond a = true ∧ e (k' - 1) ≤ dur ∧
      ∃ pre, items = pre ++ a :: rest ∧ ∀ x ∈ pre, cond x = false) ∧
    (∀ (α : Type) (cond : α → Bool) (dur sigma : Nat) (e : Nat → Nat)
       (items : List α) (k a rest k'),
      sigmaNextLoop cond dur sigma e items k = (some a, rest, k') →
      cond a = true ∧ sigma + e (k' - 1) ≤ dur ∧
      ∃ pre, items = pre ++ a :: rest ∧ ∀ x ∈ pre, cond x = false) := by
  refine ⟨?_, ?_, ?_, ?_⟩
  · intro α f e h
    have hover :=
      timedNextLoop_over f.condition f.duration e f.iterator (f.start.getD 0) h
    simp [TimedFilterM.next, hover]
  · intro α f e h
    have hover :=
      sigmaNextLoop_over f.condition f.duration f.sigma e f.iterator 0 (by omega)
    simp [SigmaFilterM.next, hover]
  · intro α cond dur e items k a rest k' h
    exact timedNextLoop_some cond dur e items k a rest k' h
  · intro α cond dur sigma e items k a rest k' h
    exact sigmaNextLoop_some cond dur sigma e items k a rest k' h

/-- C9, witness: a `TimedFilter` whose first elapsed reading exceeds its
    zero budget yields nothing, applied at a concrete filter. -/
theorem C9_witness :
    ((⟨[5], fun _ => true, none, 0⟩ : TimedFilterM Nat).next (fun _ => 1)).1
      = none :=
  C9_filters_respect_budget.1 Nat ⟨[5], fun _ => true, none, 0⟩ (fun _ => 1)
    (by decide)

/-! ## Counterexamples for C3, C4, C7 and C8 -/

/-- C3, counterexample: the claim says every generated move's destination is
    neither Void nor an own piece, across all families including the
    en-passant branch.  The en-passant branch of `PawnIter::new` checks only
    the coordinates of the board's en-passant square, never its occupant: on
    `gPawnEp` — whose board records en-passant square (2,2), occupied by a
    white rook — the white pawn's generated moves consist exactly of the
    en-passant move onto its own rook. -/
theorem C3_en_passant_onto_own_piece :
    generateMoves gPawnEp (some (some (2, 2))) ⟨.pawn, true, true⟩
      ⟨0, 0, 1, 1⟩ 1 = some [Move.mk ⟨0, 0, 1, 1⟩ ⟨0, 0, 2, 2⟩] ∧
    (gPawnEp ⟨0, 0, 2, 2⟩).isPieceOfColor true = true := by
  refine ⟨by decide, by decide⟩

/-- C4, counterexample: the claim says a white pawn gets a non-capturing
    step to (L, T+1, x, y) when that tile is blank.  On `gPawnT` the tile one
    step forward in T is blank, yet the pawn generates no move at all: the
    second forward permutation of `PawnIter::new` is `Coords(1, 0, 0, 0)`,
    one step in L, not in T. -/
theorem C4_no_forward_time_step :
    (gPawnT ⟨0, 1, 0, 0⟩).isBlank = true ∧
    generateMoves gPawnT (some none) ⟨.pawn, true, true⟩ ⟨0, 0, 0, 0⟩ 1 =
      some [] := by
  refine ⟨by decide, by decide⟩

/-- C7, counterexample: the claim says a square is `moved = true` iff its
    (kind, color) differs from the same square at time T−1.  On the listed
    1×1 timeline `[[1], [2], [2]]` the square at the third board matches the
    second board's square (both white knights), yet the parse pipeline leaves
    its moved flag true: the reconstruction inherits the running state's
    moved flag, which is sticky once the square has changed. -/
theorem C7_moved_flag_sticky :
    parseTimeline 1 1 true [[1], [2], [2]] = Except.ok
      [⟨[Tile.piece ⟨.pawn, true, false⟩], none, none⟩,
       ⟨[Tile.piece ⟨.knight, true, true⟩], none, none⟩,
       ⟨[Tile.piece ⟨.knight, true, true⟩], none, none⟩] ∧
    kcEq (Tile.piece ⟨.knight, true, true⟩)
      (Tile.piece ⟨.knight, true, true⟩) = true := by
  refine ⟨rfl, by decide⟩

/-- C8, counterexample: the claim says parse failures of `parse_pgn` are
    reported only as typed `PGNParseError` values.  An input with no `board`
    header (and no variants directory) reaches neither the custom-FEN path
    nor the variant path, and the source executes `unimplemented!()` — an
    unrecoverable panic — instead of returning an error value
    (`parse.rs` line 498). -/
theorem C8_parse_pgn_panics_without_board_header :
    parsePgnDispatch none false false = PgnDispatch.panicUnimplemented := by
  decide

/-! ## C3, amended -/

/-- A tile is blank exactly when `isBlank` holds. -/
theorem isBlank_iff (t : Tile) : t.isBlank = true ↔ t = Tile.blank := by
  cases t <;> simp [Tile.isBlank]

/-- A tile holding an enemy piece is neither Void nor an own piece. -/
theorem enemy_not_own (t : Tile) (w : Bool)
    (h : t.isPieceOfColor (!w) = true) :
    t ≠ Tile.void ∧ t.isPieceOfColor w = false := by
  cases t with
  | piece q =>
    refine ⟨by simp, ?_⟩
    simp only [Tile.isPieceOfColor, beq_iff_eq] at h ⊢
    cases w <;> simp_all
  | blank => simp [Tile.isPieceOfColor] at h
  | void => simp [Tile.isPieceOfColor] at h

/-- Every move emitted along a ranging direction lands on a blank tile or an
    enemy piece: never Void, never an own piece. -/
theorem rangingDir_pseudo (g : Coords → Tile) (w : Bool) (c d : Coords) :
    ∀ fuel dist m, m ∈ rangingDir g w c d fuel dist →
      g m.dst ≠ Tile.void ∧ (g m.dst).isPieceOfColor w = false := by
  intro fuel
  induction fuel with
  | zero => intro dist m hm; simp [rangingDir] at hm
  | succ n ih =>
    intro dist m hm
    rw [rangingDir] at hm
    cases hgn : g (c + Coords.scale d ((dist : Int) + 1)) with
    | void =>
      rw [hgn] at hm
      exact absurd hm (List.not_mem_nil m)
    | blank =>
      rw [hgn] at hm
      have hnv : g (c + Coords.scale d ((dist : Int) + 1)) ≠ Tile.void := by
        rw [hgn]; simp
      have hmn : Move.new g c (c + Coords.scale d ((dist : Int) + 1)) =
          some ⟨c, c + Coords.scale d ((dist : Int) + 1)⟩ := by
        unfold Move.new; rw [if_neg hnv]
      rw [hmn] at hm
      have hm2 : m = (⟨c, c + Coords.scale d ((dist : Int) + 1)⟩ : Move) ∨
          m ∈ rangingDir g w c d n (dist + 1) := List.mem_cons.mp hm
      rcases hm2 with rfl | hm'
      · refine ⟨hnv, ?_⟩
        show (g (c + Coords.scale d ((dist : Int) + 1))).isPieceOfColor w = false
        rw [hgn]; rfl
      · exact ih (dist + 1) m hm'
    | piece q =>
      rw [hgn] at hm
      have hm0 : m ∈ (if q.white ≠ w then
          (match Move.new g c (c + Coords.scale d ((dist : Int) + 1)) with
           | some mv => mv :: rangingDir g w c d n (dist + 1)
           | none => [])
        else []) := hm
      by_cases hq : q.white = w
      · rw [if_neg (not_not_intro hq)] at hm0
        exact absurd hm0 (List.not_mem_nil m)
      · rw [if_pos hq] at hm0
        have hnv : g (c + Coords.scale d ((dist : Int) + 1)) ≠ Tile.void := by
          rw [hgn]; simp
        have hmn : Move.new g c (c + Coords.scale d ((dist : Int) + 1)) =
            some ⟨c, c + Coords.scale d ((dist : Int) + 1)⟩ := by
          unfold Move.new; rw [if_neg hnv]
        rw [hmn] at hm0
        have hm2 : m = (⟨c, c + Coords.scale d ((dist : Int) + 1)⟩ : Move) ∨
            m ∈ rangingDir g w c d n (dist + 1) := List.mem_cons.mp hm0
        rcases hm2 with rfl | hm'
        · refine ⟨hnv, ?_⟩
          show (g (c + Coords.scale d ((dist : Int) + 1))).isPieceOfColor w = false
          rw [hgn]
          simp [Tile.isPieceOfColor, hq]
        · exact ih (dist + 1) m hm'

/-- Every move emitted by the one-step iterator lands on a blank tile or an
    enemy piece. -/
theorem oneStepMoves_pseudo (g : Coords → Tile) (w : Bool) (c : Coords) :
    ∀ dirs m, m ∈ oneStepMoves g w c dirs →
      g m.dst ≠ Tile.void ∧ (g m.dst).isPieceOfColor w = false := by
  intro dirs
  induction dirs with
  | nil => intro m hm; simp [oneStepMoves] at hm
  | cons d rest ih =>
    intro m hm
    rw [oneStepMoves] at hm
    cases hgn : g (c + d) with
    | void => rw [hgn] at hm; simp at hm; exact ih m hm
    | blank =>
      rw [hgn] at hm
      simp only [Move.new, hgn, reduceCtorEq, if_false, ite_false] at hm
      rcases List.mem_cons.mp hm with rfl | hm'
      · exact ⟨by simp [hgn], by simp [hgn, Tile.isPieceOfColor]⟩
      · exact ih m hm'
    | piece q =>
      rw [hgn] at hm
      by_cases hq : q.white = w
      · simp [hq] at hm; exact ih m hm
      · simp only [ne_eq, hq, not_false_iff, if_true, if_pos] at hm
        simp only [Move.new, hgn, reduceCtorEq, if_false, ite_false] at hm
        rcases List.mem_cons.mp hm with rfl | hm'
        · refine ⟨by simp [hgn], ?_⟩
          simp [hgn, Tile.isPieceOfColor, hq]
        · exact ih m hm'

/-- Every move of a forward-step component lands on a blank tile. -/
theorem pawnForward_pseudo (g : Coords → Tile) (p : Piece) (c perm : Coords)
    (l : List Move) (h : pawnForward g p c perm = some l) :
    ∀ m ∈ l, (g m.dst).isBlank = true := by
  unfold pawnForward at h
  by_cases h1 : (g (forward c perm p.white)).isBlank
  · rw [if_pos h1] at h
    have hnv1 : g (forward c perm p.white) ≠ Tile.void := by
      rw [isBlank_iff] at h1; rw [h1]; simp
    simp only [Move.new, if_neg hnv1] at h
    by_cases h2 : (!p.moved && (g (forward c (perm.scale 2) p.white)).isBlank) = true
    · rw [if_pos h2] at h
      have h2' : (g (forward c (perm.scale 2) p.white)).isBlank = true :=
        (Bool.and_eq_true _ _ ▸ h2).2
      have hnv2 : g (forward c (perm.scale 2) p.white) ≠ Tile.void := by
        rw [isBlank_iff] at h2'; rw [h2']; simp
      simp only [Move.new, if_neg hnv2, Option.some.injEq] at h
      subst h
      intro m hm
      rcases List.mem_cons.mp hm with rfl | hm'
      · exact h1
      · rcases List.mem_singleton.mp hm' with rfl
        exact h2'
    · rw [if_neg h2] at h
      cases h
      intro m hm
      rcases List.mem_singleton.mp hm with rfl
      exact h1
  · rw [if_neg h1] at h
    cases h
    intro m hm
    cases hm

/-- Every move of the capture component lands on an enemy piece. -/
theorem pawnCaptures_pseudo (g : Coords → Tile) (p : Piece) (c : Coords) :
    ∀ perms l, pawnCaptures g p c perms = some l →
      ∀ m ∈ l, (g m.dst).isPieceOfColor (!p.white) = true := by
  intro perms
  induction perms with
  | nil =>
    intro l h m hm
    cases h
    cases hm
  | cons perm rest ih =>
    intro l h m hm
    rw [pawnCaptures] at h
    by_cases hcond : (g (forward c perm p.white)).isPieceOfColor (!p.white) = true
    · rw [if_pos hcond] at h
      have hnv : g (forward c perm p.white) ≠ Tile.void := by
        intro hv
        rw [hv] at hcond
        exact Bool.noConfusion hcond
      have hmn : Move.new g c (forward c perm p.white) =
          some ⟨c, forward c perm p.white⟩ := by
        unfold Move.new; rw [if_neg hnv]
      rw [hmn] at h
      have h' : (pawnCaptures g p c rest).bind
          (fun tail => some ([(⟨c, forward c perm p.white⟩ : Move)] ++ tail)) =
          some l := h
      rcases Option.bind_eq_some.mp h' with ⟨tail, htail, hl⟩
      obtain rfl := Option.some.inj hl
      rcases List.mem_append.mp hm with hmh | hmt
      · rcases List.mem_singleton.mp hmh with rfl
        exact hcond
      · exact ih tail htail m hmt
    · rw [if_neg hcond] at h
      have h' : (pawnCaptures g p c rest).bind
          (fun tail => some ([] ++ tail)) = some l := h
      rcases Option.bind_eq_some.mp h' with ⟨tail, htail, hl⟩
      obtain rfl := Option.some.inj hl
      rcases List.mem_append.mp hm with hmh | hmt
      · cases hmh
      · exact ih tail htail m hmt

/-- Every move of the en-passant component lands on the board's en-passant
    square and survives the Void check of `Move::new`. -/
theorem pawnEnPassant_pseudo (g : Coords → Tile)
    (bep : Option (Option (Int × Int))) (p : Piece) (c : Coords) :
    ∀ l, pawnEnPassant g bep p c = some l →
      ∀ m ∈ l, g m.dst ≠ Tile.void ∧
        ∃ x y, bep = some (some (x, y)) ∧ m.dst = ⟨c.l, c.t, x, y⟩ := by
  intro l h m hm
  unfold pawnEnPassant at h
  by_cases hep : p.canEnpassant = true
  · rw [if_pos hep] at h
    match bep with
    | none => cases h
    | some none =>
      have h' : (some [] : Option (List Move)) = some l := h
      obtain rfl := Option.some.inj h'
      cases hm
    | some (some (x, y)) =>
      have h' : (if (x, y) = (forward c ⟨0, 0, 1, 1⟩ p.white).physical ∨
            (x, y) = (forward c ⟨0, 0, -1, 1⟩ p.white).physical then
          (Move.new g c ⟨c.l, c.t, x, y⟩).map (fun m => [m])
        else some []) = some l := h
      by_cases hmatch : (x, y) = (forward c ⟨0, 0, 1, 1⟩ p.white).physical ∨
          (x, y) = (forward c ⟨0, 0, -1, 1⟩ p.white).physical
      · rw [if_pos hmatch] at h'
        by_cases hv : g (⟨c.l, c.t, x, y⟩ : Coords) = Tile.void
        · rw [show Move.new g c ⟨c.l, c.t, x, y⟩ = none from by
            unfold Move.new; rw [if_pos hv]] at h'
          cases h'
        · rw [show Move.new g c ⟨c.l, c.t, x, y⟩ =
              some ⟨c, ⟨c.l, c.t, x, y⟩⟩ from by
            unfold Move.new; rw [if_neg hv]] at h'
          have h2 : (some [(⟨c, ⟨c.l, c.t, x, y⟩⟩ : Move)] : Option (List Move))
              = some l := h'
          obtain rfl := Option.some.inj h2
          rcases List.mem_singleton.mp hm with rfl
          exact ⟨hv, x, y, rfl, rfl⟩
      · rw [if_neg hmatch] at h'
        obtain rfl := Option.some.inj h'
        cases hm
  · rw [if_neg hep] at h
    have h' : (some [] : Option (List Move)) = some l := h
    obtain rfl := Option.some.inj h'
    cases hm

/-- C3, amended: every move yielded by `generate_moves` lands on a non-Void
    tile, and — provided the board's recorded en-passant square is not
    occupied by a piece of the mover's color — never on an own piece.  The
    hypothesis is forced by the en-passant branch, which checks only the
    coordinates of the en-passant square and never its occupant. -/
theorem C3_pseudo_legal (g : Coords → Tile) (bep : Option (Option (Int × Int)))
    (p : Piece) (c : Coords) (fuel : Nat) (ms : List Move)
    (hep : ∀ x y, bep = some (some (x, y)) →
      (g ⟨c.l, c.t, x, y⟩).isPieceOfColor p.white = false)
    (hgen : generateMoves g bep p c fuel = some ms) :
    ∀ m ∈ ms, g m.dst ≠ Tile.void ∧ (g m.dst).isPieceOfColor p.white = false := by
  have hblank : ∀ m : Move, (g m.dst).isBlank = true →
      g m.dst ≠ Tile.void ∧ (g m.dst).isPieceOfColor p.white = false := by
    intro m hb
    rw [isBlank_iff] at hb
    rw [hb]
    exact ⟨by simp, rfl⟩
  have hrang : ∀ (dirs : List Coords) m, m ∈ rangingMoves g p.white c dirs fuel →
      g m.dst ≠ Tile.void ∧ (g m.dst).isPieceOfColor p.white = false := by
    intro dirs m hm
    rcases List.mem_flatMap.mp hm with ⟨d, _, hmd⟩
    exact rangingDir_pseudo g p.white c d fuel 0 m hmd
  have hpawn : ∀ ms', pawnMoves g bep p c = some ms' →
      ∀ m ∈ ms', g m.dst ≠ Tile.void ∧
        (g m.dst).isPieceOfColor p.white = false := by
    intro ms' hpm m hm
    unfold pawnMoves at hpm
    cases hf1 : pawnForward g p c ⟨0, 0, 0, 1⟩ with
    | none => rw [hf1] at hpm; exact Option.noConfusion hpm
    | some f1 =>
      rw [hf1] at hpm
      cases hf2 : pawnForward g p c ⟨1, 0, 0, 0⟩ with
      | none => rw [hf2] at hpm; exact Option.noConfusion hpm
      | some f2 =>
        rw [hf2] at hpm
        cases hcap : pawnCaptures g p c (capturePerms p) with
        | none => rw [hcap] at hpm; exact Option.noConfusion hpm
        | some caps =>
          rw [hcap] at hpm
          cases hepl : pawnEnPassant g bep p c with
          | none => rw [hepl] at hpm; exact Option.noConfusion hpm
          | some ep =>
            rw [hepl] at hpm
            have hms' : some (f1 ++ f2 ++ caps ++ ep) = some ms' := hpm
            obtain rfl := Option.some.inj hms'
            rcases List.mem_append.mp hm with h3 | hmep
            · rcases List.mem_append.mp h3 with h2 | hmcap
              · rcases List.mem_append.mp h2 with hm1 | hm2
                · exact hblank m (pawnForward_pseudo g p c _ f1 hf1 m hm1)
                · exact hblank m (pawnForward_pseudo g p c _ f2 hf2 m hm2)
              · exact enemy_not_own (g m.dst) p.white
                  (pawnCaptures_pseudo g p c (capturePerms p) caps hcap m hmcap)
            · obtain ⟨hnv, x, y, hbep, hdst⟩ :=
                pawnEnPassant_pseudo g bep p c ep hepl m hmep
              refine ⟨hnv, ?_⟩
              rw [hdst]
              exact hep x y hbep
  cases hk : p.kind
  all_goals simp only [generateMoves, hk] at hgen
  case pawn => exact hpawn ms hgen
  case brawn => exact hpawn ms hgen
  case knight =>
    obtain rfl := Option.some.inj hgen
    intro m hm
    exact oneStepMoves_pseudo g p.white c (permDirs 0) m hm
  all_goals
    obtain rfl := Option.some.inj hgen
  all_goals
    intro m hm
  case rook => exact hrang (permDirs 1) m hm
  case bishop => exact hrang (permDirs 2) m hm
  case unicorn => exact hrang (permDirs 3) m hm
  case dragon => exact hrang (permDirs 4) m hm
  case princess => exact hrang (permDirs 1 ++ permDirs 2) m hm
  case queen => exact hrang (permDirs 1 ++ permDirs 2 ++ permDirs 3 ++ permDirs 4) m hm
  case royalQueen => exact hrang (permDirs 1 ++ permDirs 2 ++ permDirs 3 ++ permDirs 4) m hm
  case king => exact hrang (permDirs 1 ++ permDirs 2 ++ permDirs 3 ++ permDirs 4) m hm
  case commonKing => exact hrang (permDirs 1 ++ permDirs 2 ++ permDirs 3 ++ permDirs 4) m hm

/-- C3, witness: the lone knight's single generated move lands on a tile
    that is neither Void nor an own piece. -/
theorem C3_witness :
    gKnight (⟨2, 1, 0, 0⟩ : Coords) ≠ Tile.void ∧
    (gKnight ⟨2, 1, 0, 0⟩).isPieceOfColor true = false :=
  C3_pseudo_legal gKnight none ⟨.knight, true, true⟩ ⟨0, 0, 0, 0⟩ 1
    [Move.mk ⟨0, 0, 0, 0⟩ ⟨2, 1, 0, 0⟩]
    (by intro x y h; exact Option.noConfusion h) (by decide)
    (Move.mk ⟨0, 0, 0, 0⟩ ⟨2, 1, 0, 0⟩) (by decide)

/-! ## C4, amended -/

/-- Adding the same coordinate cancels on the left. -/
theorem coords_add_cancel (c a b : Coords) : c + a = c + b ↔ a = b := by
  obtain ⟨a1, a2, a3, a4⟩ := a
  obtain ⟨b1, b2, b3, b4⟩ := b
  constructor
  · intro h
    have hl : c.l + a1 = c.l + b1 := congrArg Coords.l h
    have ht : c.t + a2 = c.t + b2 := congrArg Coords.t h
    have hx : c.x + a3 = c.x + b3 := congrArg Coords.x h
    have hy : c.y + a4 = c.y + b4 := congrArg Coords.y h
    simp only [Coords.mk.injEq]
    refine ⟨by omega, by omega, by omega, by omega⟩
  · intro h; rw [h]

/-- Subtracting the same coordinate cancels on the left. -/
theorem coords_sub_cancel (c a b : Coords) : c - a = c - b ↔ a = b := by
  obtain ⟨a1, a2, a3, a4⟩ := a
  obtain ⟨b1, b2, b3, b4⟩ := b
  constructor
  · intro h
    have hl : c.l - a1 = c.l - b1 := congrArg Coords.l h
    have ht : c.t - a2 = c.t - b2 := congrArg Coords.t h
    have hx : c.x - a3 = c.x - b3 := congrArg Coords.x h
    have hy : c.y - a4 = c.y - b4 := congrArg Coords.y h
    simp only [Coords.mk.injEq]
    refine ⟨by omega, by omega, by omega, by omega⟩
  · intro h; rw [h]

/-- The forward map is injective in its delta. -/
theorem forward_inj (c a b : Coords) (w : Bool) :
    forward c a w = forward c b w ↔ a = b := by
  cases w
  · show c - a = c - b ↔ a = b
    exact coords_sub_cancel c a b
  · show c + a = c + b ↔ a = b
    exact coords_add_cancel c a b

/-- The x coordinate of the single y-forward step equals the pawn's x. -/
theorem forward_e1_x (c : Coords) (w : Bool) :
    (forward c ⟨0, 0, 0, 1⟩ w).x = c.x := by
  cases w
  · show c.x - 0 = c.x
    omega
  · show c.x + 0 = c.x
    omega

/-- The layer of the single L-forward step differs from the pawn's layer. -/
theorem forward_e2_l (c : Coords) (w : Bool) :
    (forward c ⟨1, 0, 0, 0⟩ w).l = c.l + 1 ∨
    (forward c ⟨1, 0, 0, 0⟩ w).l = c.l - 1 := by
  cases w
  · exact Or.inr (by show c.l - 1 = c.l - 1; rfl)
  · exact Or.inl (by show c.l + 1 = c.l + 1; rfl)

/-- The x coordinate of a diagonal capture square differs from the pawn's x
    by one. -/
theorem forward_diag_x (c : Coords) (w : Bool) (s : Int)
    (hs : s = 1 ∨ s = -1) :
    (forward c ⟨0, 0, s, 1⟩ w).x = c.x + 1 ∨
    (forward c ⟨0, 0, s, 1⟩ w).x = c.x - 1 := by
  cases w
  · show c.x - s = c.x + 1 ∨ c.x - s = c.x - 1
    omega
  · show c.x + s = c.x + 1 ∨ c.x + s = c.x - 1
    omega

/-- Membership characterization for one forward component: the single step
    is in the component exactly when its square is blank, and every member's
    destination is the single or the kickstart square. -/
theorem pawnForward_mem (g : Coords → Tile) (p : Piece) (c perm : Coords)
    (l : List Move) (h : pawnForward g p c perm = some l) :
    ((⟨c, forward c perm p.white⟩ : Move) ∈ l ↔
      (g (forward c perm p.white)).isBlank = true) ∧
    ∀ m ∈ l, m.src = c ∧ (m.dst = forward c perm p.white ∨
      m.dst = forward c (perm.scale 2) p.white) := by
  unfold pawnForward at h
  by_cases h1 : (g (forward c perm p.white)).isBlank = true
  · rw [if_pos h1] at h
    have hnv1 : g (forward c perm p.white) ≠ Tile.void := by
      rw [isBlank_iff] at h1; rw [h1]; simp
    have h0 : (if (!p.moved && (g (forward c (perm.scale 2) p.white)).isBlank) = true then
        (match Move.new g c (forward c (perm.scale 2) p.white) with
         | none => none
         | some m2 => some [(⟨c, forward c perm p.white⟩ : Move), m2])
      else some [(⟨c, forward c perm p.white⟩ : Move)]) = some l := by
      rw [show Move.new g c (forward c perm p.white) =
          some ⟨c, forward c perm p.white⟩ from by
        unfold Move.new; rw [if_neg hnv1]] at h
      exact h
    by_cases h2 : (!p.moved && (g (forward c (perm.scale 2) p.white)).isBlank) = true
    · rw [if_pos h2] at h0
      have h2' : (g (forward c (perm.scale 2) p.white)).isBlank = true :=
        (Bool.and_eq_true _ _ ▸ h2).2
      have hnv2 : g (forward c (perm.scale 2) p.white) ≠ Tile.void := by
        rw [isBlank_iff] at h2'; rw [h2']; simp
      rw [show Move.new g c (forward c (perm.scale 2) p.white) =
          some ⟨c, forward c (perm.scale 2) p.white⟩ from by
        unfold Move.new; rw [if_neg hnv2]] at h0
      have h3 : (some [(⟨c, forward c perm p.white⟩ : Move),
          ⟨c, forward c (perm.scale 2) p.white⟩] : Option (List Move)) = some l := h0
      obtain rfl := Option.some.inj h3
      refine ⟨⟨fun _ => h1, fun _ => List.mem_cons_self _ _⟩, ?_⟩
      intro m hm
      rcases List.mem_cons.mp hm with rfl | hm'
      · exact ⟨rfl, Or.inl rfl⟩
      · rcases List.mem_singleton.mp hm' with rfl
        exact ⟨rfl, Or.inr rfl⟩
    · rw [if_neg h2] at h0
      obtain rfl := Option.some.inj h0
      refine ⟨⟨fun _ => h1, fun _ => List.mem_cons_self _ _⟩, ?_⟩
      intro m hm
      rcases List.mem_singleton.mp hm with rfl
      exact ⟨rfl, Or.inl rfl⟩
  · rw [if_neg h1] at h
    obtain rfl := Option.some.inj h
    refine ⟨⟨fun hmem => absurd hmem (List.not_mem_nil _), fun hb => absurd hb h1⟩, ?_⟩
    intro m hm
    cases hm

/-- Every capture-component move's destination is the forward image of one
    of the capture deltas. -/
theorem pawnCaptures_dst (g : Coords → Tile) (p : Piece) (c : Coords) :
    ∀ perms l, pawnCaptures g p c perms = some l →
      ∀ m ∈ l, ∃ perm ∈ perms, m.dst = forward c perm p.white := by
  intro perms
  induction perms with
  | nil =>
    intro l h m hm
    cases h
    cases hm
  | cons perm rest ih =>
    intro l h m hm
    rw [pawnCaptures] at h
    by_cases hcond : (g (forward c perm p.white)).isPieceOfColor (!p.white) = true
    · rw [if_pos hcond] at h
      have hnv : g (forward c perm p.white) ≠ Tile.void := by
        intro hv
        rw [hv] at hcond
        exact Bool.noConfusion hcond
      rw [show Move.new g c (forward c perm p.white) =
          some ⟨c, forward c perm p.white⟩ from by
        unfold Move.new; rw [if_neg hnv]] at h
      have h' : (pawnCaptures g p c rest).bind
          (fun tail => some ([(⟨c, forward c perm p.white⟩ : Move)] ++ tail)) =
          some l := h
      rcases Option.bind_eq_some.mp h' with ⟨tail, htail, hl⟩
      obtain rfl := Option.some.inj hl
      rcases List.mem_append.mp hm with hmh | hmt
      · rcases List.mem_singleton.mp hmh with rfl
        exact ⟨perm, List.mem_cons_self _ _, rfl⟩
      · obtain ⟨perm', hp', hd'⟩ := ih tail htail m hmt
        exact ⟨perm', List.mem_cons_of_mem _ hp', hd'⟩
    · rw [if_neg hcond] at h
      have h' : (pawnCaptures g p c rest).bind
          (fun tail => some ([] ++ tail)) = some l := h
      rcases Option.bind_eq_some.mp h' with ⟨tail, htail, hl⟩
      obtain rfl := Option.some.inj hl
      rcases List.mem_append.mp hm with hmh | hmt
      · cases hmh
      · obtain ⟨perm', hp', hd'⟩ := ih tail htail m hmt
        exact ⟨perm', List.mem_cons_of_mem _ hp', hd'⟩

/-- Every en-passant-component move keeps the pawn's layer and shifts its x
    by one. -/
theorem pawnEnPassant_dst (g : Coords → Tile)
    (bep : Option (Option (Int × Int))) (p : Piece) (c : Coords) :
    ∀ l, pawnEnPassant g bep p c = some l →
      ∀ m ∈ l, m.dst.l = c.l ∧
        (m.dst.x = c.x + 1 ∨ m.dst.x = c.x - 1) := by
  intro l h m hm
  unfold pawnEnPassant at h
  by_cases hep : p.canEnpassant = true
  · rw [if_pos hep] at h
    match bep with
    | none => cases h
    | some none =>
      have h' : (some [] : Option (List Move)) = some l := h
      obtain rfl := Option.some.inj h'
      cases hm
    | some (some (x, y)) =>
      have h' : (if (x, y) = (forward c ⟨0, 0, 1, 1⟩ p.white).physical ∨
            (x, y) = (forward c ⟨0, 0, -1, 1⟩ p.white).physical then
          (Move.new g c ⟨c.l, c.t, x, y⟩).map (fun m => [m])
        else some []) = some l := h
      by_cases hmatch : (x, y) = (forward c ⟨0, 0, 1, 1⟩ p.white).physical ∨
          (x, y) = (forward c ⟨0, 0, -1, 1⟩ p.white).physical
      · rw [if_pos hmatch] at h'
        by_cases hv : g (⟨c.l, c.t, x, y⟩ : Coords) = Tile.void
        · rw [show Move.new g c ⟨c.l, c.t, x, y⟩ = none from by
            unfold Move.new; rw [if_pos hv]] at h'
          cases h'
        · rw [show Move.new g c ⟨c.l, c.t, x, y⟩ =
              some ⟨c, ⟨c.l, c.t, x, y⟩⟩ from by
            unfold Move.new; rw [if_neg hv]] at h'
          have h2 : (some [(⟨c, ⟨c.l, c.t, x, y⟩⟩ : Move)] : Option (List Move))
              = some l := h'
          obtain rfl := Option.some.inj h2
          rcases List.mem_singleton.mp hm with rfl
          refine ⟨rfl, ?_⟩
          show x = c.x + 1 ∨ x = c.x - 1
          rcases hmatch with h3 | h3
          · have hx : x = (forward c ⟨0, 0, 1, 1⟩ p.white).x :=
              congrArg Prod.fst h3
            rcases forward_diag_x c p.white 1 (Or.inl rfl) with h4 | h4 <;>
              rw [hx, h4] <;> [exact Or.inl rfl; exact Or.inr rfl]
          · have hx : x = (forward c ⟨0, 0, -1, 1⟩ p.white).x :=
              congrArg Prod.fst h3
            rcases forward_diag_x c p.white (-1) (Or.inr rfl) with h4 | h4 <;>
              rw [hx, h4] <;> [exact Or.inl rfl; exact Or.inr rfl]
      · rw [if_neg hmatch] at h'
        obtain rfl := Option.some.inj h'
        cases hm
  · rw [if_neg hep] at h
    have h' : (some [] : Option (List Move)) = some l := h
    obtain rfl := Option.some.inj h'
    cases hm

/-- No capture delta coincides with a forward delta or its double. -/
theorem capturePerms_ne (p : Piece) :
    ∀ perm ∈ capturePerms p,
      perm ≠ ⟨0, 0, 0, 1⟩ ∧ perm ≠ ⟨1, 0, 0, 0⟩ := by
  unfold capturePerms
  split <;> decide

/-- C4, amended: for every pawn or brawn, the generated non-capturing
    single-step forward moves are exactly the step one square forward in y
    (when blank) and the step one board forward in L (when blank) — the
    second forward permutation of `PawnIter::new` is `Coords(1,0,0,0)`, a
    layer step, not a time step.  "Forward" adds the delta for white and
    subtracts it for black. -/
theorem C4_forward_steps (g : Coords → Tile)
    (bep : Option (Option (Int × Int))) (p : Piece) (c : Coords)
    (fuel : Nat) (ms : List Move)
    (hkind : p.kind = PieceKind.pawn ∨ p.kind = PieceKind.brawn)
    (hgen : generateMoves g bep p c fuel = some ms) :
    ((Move.mk c (forward c ⟨0, 0, 0, 1⟩ p.white)) ∈ ms ↔
      (g (forward c ⟨0, 0, 0, 1⟩ p.white)).isBlank = true) ∧
    ((Move.mk c (forward c ⟨1, 0, 0, 0⟩ p.white)) ∈ ms ↔
      (g (forward c ⟨1, 0, 0, 0⟩ p.white)).isBlank = true) := by
  have hpm : pawnMoves g bep p c = some ms := by
    rcases hkind with hk | hk <;> simp only [generateMoves, hk] at hgen <;>
      exact hgen
  unfold pawnMoves at hpm
  cases hf1 : pawnForward g p c ⟨0, 0, 0, 1⟩ with
  | none => rw [hf1] at hpm; exact Option.noConfusion hpm
  | some f1 =>
  rw [hf1] at hpm
  cases hf2 : pawnForward g p c ⟨1, 0, 0, 0⟩ with
  | none => rw [hf2] at hpm; exact Option.noConfusion hpm
  | some f2 =>
  rw [hf2] at hpm
  cases hcap : pawnCaptures g p c (capturePerms p) with
  | none => rw [hcap] at hpm; exact Option.noConfusion hpm
  | some caps =>
  rw [hcap] at hpm
  cases hepl : pawnEnPassant g bep p c with
  | none => rw [hepl] at hpm; exact Option.noConfusion hpm
  | some ep =>
  rw [hepl] at hpm
  have hms : some (f1 ++ f2 ++ caps ++ ep) = some ms := hpm
  obtain rfl := Option.some.inj hms
  obtain ⟨hf1iff, hf1dst⟩ := pawnForward_mem g p c ⟨0, 0, 0, 1⟩ f1 hf1
  obtain ⟨hf2iff, hf2dst⟩ := pawnForward_mem g p c ⟨1, 0, 0, 0⟩ f2 hf2
  constructor
  · constructor
    · intro hmem
      rcases List.mem_append.mp hmem with h3 | hmep
      · rcases List.mem_append.mp h3 with h2 | hmcap
        · rcases List.mem_append.mp h2 with hm1 | hm2
          · exact hf1iff.mp hm1
          · exfalso
            obtain ⟨_, hd⟩ := hf2dst _ hm2
            rcases hd with hd | hd
            · have hd' : forward c ⟨0, 0, 0, 1⟩ p.white =
                  forward c ⟨1, 0, 0, 0⟩ p.white := hd
              exact absurd ((forward_inj c _ _ p.white).mp hd') (by decide)
            · have hd' : forward c ⟨0, 0, 0, 1⟩ p.white =
                  forward c (Coords.scale ⟨1, 0, 0, 0⟩ 2) p.white := hd
              exact absurd ((forward_inj c _ _ p.white).mp hd') (by decide)
        · exfalso
          obtain ⟨perm, hperm, hd⟩ :=
            pawnCaptures_dst g p c (capturePerms p) caps hcap _ hmcap
          have hd' : forward c ⟨0, 0, 0, 1⟩ p.white = forward c perm p.white :=
            hd
          have he : (⟨0, 0, 0, 1⟩ : Coords) = perm :=
            (forward_inj c _ _ p.white).mp hd'
          exact absurd he.symm (capturePerms_ne p perm hperm).1
      · exfalso
        obtain ⟨_, hx⟩ := pawnEnPassant_dst g bep p c ep hepl _ hmep
        have hx' : (forward c ⟨0, 0, 0, 1⟩ p.white).x = c.x + 1 ∨
            (forward c ⟨0, 0, 0, 1⟩ p.white).x = c.x - 1 := hx
        have hx0 := forward_e1_x c p.white
        omega
    · intro hb
      exact List.mem_append.mpr (Or.inl (List.mem_append.mpr
        (Or.inl (List.mem_append.mpr (Or.inl (hf1iff.mpr hb))))))
  · constructor
    · intro hmem
      rcases List.mem_append.mp hmem with h3 | hmep
      · rcases List.mem_append.mp h3 with h2 | hmcap
        · rcases List.mem_append.mp h2 with hm1 | hm2
          · exfalso
            obtain ⟨_, hd⟩ := hf1dst _ hm1
            rcases hd with hd | hd
            · have hd' : forward c ⟨1, 0, 0, 0⟩ p.white =
                  forward c ⟨0, 0, 0, 1⟩ p.white := hd
              exact absurd ((forward_inj c _ _ p.white).mp hd') (by decide)
            · have hd' : forward c ⟨1, 0, 0, 0⟩ p.white =
                  forward c (Coords.scale ⟨0, 0, 0, 1⟩ 2) p.white := hd
              exact absurd ((forward_inj c _ _ p.white).mp hd') (by decide)
          · exact hf2iff.mp hm2
        · exfalso
          obtain ⟨perm, hperm, hd⟩ :=
            pawnCaptures_dst g p c (capturePerms p) caps hcap _ hmcap
          have hd' : forward c ⟨1, 0, 0, 0⟩ p.white = forward c perm p.white :=
            hd
          have he : (⟨1, 0, 0, 0⟩ : Coords) = perm :=
            (forward_inj c _ _ p.white).mp hd'
          exact absurd he.symm (capturePerms_ne p perm hperm).2
      · exfalso
        obtain ⟨hl, _⟩ := pawnEnPassant_dst g bep p c ep hepl _ hmep
        have hl' : (forward c ⟨1, 0, 0, 0⟩ p.white).l = c.l := hl
        have hl0 := forward_e2_l c p.white
        omega
    · intro hb
      exact List.mem_append.mpr (Or.inl (List.mem_append.mpr
        (Or.inl (List.mem_append.mpr (Or.inr (hf2iff.mpr hb))))))

/-- A lone white pawn at the origin with one blank square up the y axis and
    Void everywhere else. -/
def gPawnY : Coords → Tile := fun c =>
  if c = ⟨0, 0, 0, 0⟩ then Tile.piece ⟨.pawn, true, true⟩
  else if c = ⟨0, 0, 0, 1⟩ then Tile.blank
  else Tile.void

/-- C4, witness: a lone white pawn beside one blank square up the y axis
    generates exactly that forward step, and the L-forward membership
    equivalence holds (both sides false, the L-destination being Void). -/
theorem C4_witness :
    ((Move.mk (⟨0, 0, 0, 0⟩ : Coords)
        (forward ⟨0, 0, 0, 0⟩ ⟨0, 0, 0, 1⟩ true)) ∈
      [Move.mk (⟨0, 0, 0, 0⟩ : Coords) ⟨0, 0, 0, 1⟩] ↔
      (gPawnY (forward ⟨0, 0, 0, 0⟩ ⟨0, 0, 0, 1⟩ true)).isBlank = true) ∧
    ((Move.mk (⟨0, 0, 0, 0⟩ : Coords)
        (forward ⟨0, 0, 0, 0⟩ ⟨1, 0, 0, 0⟩ true)) ∈
      [Move.mk (⟨0, 0, 0, 0⟩ : Coords) ⟨0, 0, 0, 1⟩] ↔
      (gPawnY (forward ⟨0, 0, 0, 0⟩ ⟨1, 0, 0, 0⟩ true)).isBlank = true) :=
  C4_forward_steps gPawnY (some none) ⟨.pawn, true, true⟩ ⟨0, 0, 0, 0⟩ 1
    [Move.mk ⟨0, 0, 0, 0⟩ ⟨0, 0, 0, 1⟩] (Or.inl rfl) (by decide)

/-! ## C7 and C8: specification-level machinery for the reconstruction -/

/-- The empty board, used as a `getD` default. -/
def emptyPB : ParseBoard := ⟨[], none, none⟩

/-- A well-formed grid of a given size: right length, no Void tile. -/
def gridOk (size : Nat) (l : List Tile) : Prop :=
  l.length = size ∧ ∀ i < size, l.getD i Tile.void ≠ Tile.void

/-- The tile the reconstruction closure writes at one square, as a function
    of the board's tile `bt` and the running state's tile `st`. -/
def newTileF (bt st : Tile) : Tile :=
  if kcEq bt st then
    match bt, st with
    | Tile.piece p, Tile.piece q => Tile.piece { p with moved := q.moved }
    | _, _ => bt
  else
    match bt with
    | Tile.piece p => Tile.piece { p with moved := true }
    | t => t

/-- Clearing a piece's moved flag (the `initial_state` square map). -/
def clearMoved : Tile → Tile
  | Tile.piece p => Tile.piece { p with moved := false }
  | t => t

/-- The pointwise evolution of one square along a timeline: the list of
    written tiles, threading the running-state tile exactly as the closure
    does. -/
def squareFold (st : Tile) : List Tile → List Tile
  | [] => []
  | bt :: rest =>
    newTileF bt st :: squareFold (if kcEq bt st then st else newTileF bt st) rest

/-- `getD` after setting the same index. -/
theorem getD_set_self {α : Type} (l : List α) (i : Nat) (a d : α)
    (h : i < l.length) : (l.set i a).getD i d = a := by
  rw [List.getD_eq_getElem?_getD, List.getElem?_set_self h]
  rfl

/-- `getD` after setting a different index. -/
theorem getD_set_of_ne {α : Type} (l : List α) (i j : Nat) (a d : α)
    (h : i ≠ j) : (l.set i a).getD j d = l.getD j d := by
  rw [List.getD_eq_getElem?_getD, List.getElem?_set_ne h,
    ← List.getD_eq_getElem?_getD]

/-- `cmp_pieces` succeeds on non-Void tiles and computes `kcEq`. -/
theorem cmpPieces_ok (t s : Tile) (ht : t ≠ Tile.void) (hs : s ≠ Tile.void) :
    cmpPieces t s = .ok (kcEq t s) := by
  cases t <;> cases s <;>
    first
      | rfl
      | exact absurd rfl ht
      | exact absurd rfl hs

/-- The written tile keeps the square's kind and color. -/
theorem newTileF_kc (bt st : Tile) (hbt : bt ≠ Tile.void) :
    kcEq (newTileF bt st) bt = true := by
  unfold newTileF
  by_cases hkc : kcEq bt st = true
  · rw [if_pos hkc]
    cases bt with
    | void => exact absurd rfl hbt
    | blank => cases st <;> simp [kcEq]
    | piece p =>
      cases st with
      | piece q => simp [kcEq]
      | blank => simp [kcEq]
      | void => simp [kcEq]
  · rw [if_neg hkc]
    cases bt with
    | void => exact absurd rfl hbt
    | blank => simp [kcEq]
    | piece p => simp [kcEq]

/-- The written tile is Void only if the square was. -/
theorem newTileF_ne_void (bt st : Tile) (hbt : bt ≠ Tile.void) :
    newTileF bt st ≠ Tile.void := by
  unfold newTileF
  by_cases hkc : kcEq bt st = true
  · rw [if_pos hkc]
    cases bt with
    | void => exact absurd rfl hbt
    | blank => cases st <;> simp
    | piece p => cases st <;> simp
  · rw [if_neg hkc]
    cases bt <;> simp_all

/-- `kcEq` is symmetric. -/
theorem kcEq_symm (a b : Tile) (h : kcEq a b = true) : kcEq b a = true := by
  cases a <;> cases b <;> simp_all [kcEq, beq_iff_eq]

/-- `kcEq` is transitive. -/
theorem kcEq_trans (a b c : Tile) (h1 : kcEq a b = true)
    (h2 : kcEq b c = true) : kcEq a c = true := by
  cases a <;> cases b <;> cases c <;> simp_all [kcEq, beq_iff_eq]

/-- `kcEq` holds reflexively on non-Void tiles. -/
theorem kcEq_refl (a : Tile) (h : a ≠ Tile.void) : kcEq a a = true := by
  cases a <;> simp_all [kcEq]

/-- In-range access into a well-formed grid is never Void. -/
theorem pbGet_ne_void (w h : Nat) (b : ParseBoard)
    (hb : gridOk (w * h) b.pieces) (x y : Int)
    (hx0 : 0 ≤ x) (hx1 : x < (w : Int)) (hy0 : 0 ≤ y) (hy1 : y < (h : Int)) :
    b.get w h x y ≠ Tile.void := by
  unfold ParseBoard.get
  rw [if_pos ⟨hx0, hx1, hy0, hy1⟩]
  apply hb.2
  have hxw : x.toNat < w := by omega
  have hyh : y.toNat < h := by omega
  calc y.toNat * w + x.toNat < y.toNat * w + w := by omega
    _ = (y.toNat + 1) * w := by ring
    _ ≤ h * w := Nat.mul_le_mul_right w (by omega)
    _ = w * h := Nat.mul_comm h w

/-- One side of the castling check succeeds on non-Void tiles. -/
theorem sideCheck_ok (t1 s1 t2 s2 : Tile) (h1 : t1 ≠ Tile.void)
    (h2 : s1 ≠ Tile.void) (h3 : t2 ≠ Tile.void) (h4 : s2 ≠ Tile.void) :
    ∃ b : Bool, sideCheck t1 s1 t2 s2 = .ok b := by
  unfold sideCheck
  rw [cmpPieces_ok t1 s1 h1 h2]
  cases kcEq t1 s1
  · rw [cmpPieces_ok t2 s2 h3 h4]
    exact ⟨_, rfl⟩
  · exact ⟨_, rfl⟩

/-- The castling detection never reaches the Void panic on well-formed
    grids with an in-range square. -/
theorem castleCheck_ok (w h : Nat) (prev board : ParseBoard)
    (hpv : gridOk (w * h) prev.pieces) (hbd : gridOk (w * h) board.pieces)
    (x y : Int) (hx0 : 0 ≤ x) (hx1 : x < (w : Int))
    (hy0 : 0 ≤ y) (hy1 : y < (h : Int)) :
    ∃ cs, castleCheck w h prev board x y = .ok cs := by
  unfold castleCheck
  by_cases hx2 : x > 1
  · obtain ⟨b1, hb1⟩ := sideCheck_ok
      (prev.get w h (x - 1) y) (board.get w h (x - 1) y)
      (prev.get w h (x - 2) y) (board.get w h (x - 2) y)
      (pbGet_ne_void w h prev hpv _ _ (by omega) (by omega) hy0 hy1)
      (pbGet_ne_void w h board hbd _ _ (by omega) (by omega) hy0 hy1)
      (pbGet_ne_void w h prev hpv _ _ (by omega) (by omega) hy0 hy1)
      (pbGet_ne_void w h board hbd _ _ (by omega) (by omega) hy0 hy1)
    rw [if_pos hx2, hb1]
    cases b1
    · by_cases hxw : x < (w : Int) - 2
      · obtain ⟨b2, hb2⟩ := sideCheck_ok
          (prev.get w h (x + 1) y) (board.get w h (x + 1) y)
          (prev.get w h (x + 2) y) (board.get w h (x + 2) y)
          (pbGet_ne_void w h prev hpv _ _ (by omega) (by omega) hy0 hy1)
          (pbGet_ne_void w h board hbd _ _ (by omega) (by omega) hy0 hy1)
          (pbGet_ne_void w h prev hpv _ _ (by omega) (by omega) hy0 hy1)
          (pbGet_ne_void w h board hbd _ _ (by omega) (by omega) hy0 hy1)
        rw [if_pos hxw, hb2]
        cases b2 <;> exact ⟨_, rfl⟩
      · rw [if_neg hxw]
        exact ⟨_, rfl⟩
    · exact ⟨_, rfl⟩
  · rw [if_neg hx2]
    by_cases hxw : x < (w : Int) - 2
    · obtain ⟨b2, hb2⟩ := sideCheck_ok
        (prev.get w h (x + 1) y) (board.get w h (x + 1) y)
        (prev.get w h (x + 2) y) (board.get w h (x + 2) y)
        (pbGet_ne_void w h prev hpv _ _ (by omega) (by omega) hy0 hy1)
        (pbGet_ne_void w h board hbd _ _ (by omega) (by omega) hy0 hy1)
        (pbGet_ne_void w h prev hpv _ _ (by omega) (by omega) hy0 hy1)
        (pbGet_ne_void w h board hbd _ _ (by omega) (by omega) hy0 hy1)
      rw [if_pos hxw, hb2]
      cases b2 <;> exact ⟨_, rfl⟩
    · rw [if_neg hxw]
      exact ⟨_, rfl⟩

/-- The en-passant update never touches the grid. -/
theorem epUpdate_pieces (w h : Nat) (prev : ParseBoard) (x y : Int)
    (p' : Piece) (board : ParseBoard) :
    (epUpdate w h prev x y p' board).pieces = board.pieces := by
  unfold epUpdate
  by_cases h1 : p'.canKickstart = true
  · rw [if_pos h1]
    by_cases h2 : p'.white = true
    · rw [if_pos h2]
      split <;> rfl
    · rw [if_neg h2]
      split <;> rfl
  · rw [if_neg h1]

/-- The castle update succeeds on well-formed grids and never touches the
    grid. -/
theorem castleUpdate_ok (w h : Nat) (prev : ParseBoard) (x y : Int)
    (p' : Piece) (board : ParseBoard)
    (hpv : gridOk (w * h) prev.pieces) (hbd : gridOk (w * h) board.pieces)
    (hx0 : 0 ≤ x) (hx1 : x < (w : Int)) (hy0 : 0 ≤ y) (hy1 : y < (h : Int)) :
    ∃ b2, castleUpdate w h prev x y p' board = .ok b2 ∧
      b2.pieces = board.pieces := by
  unfold castleUpdate
  by_cases hc : p'.canCastle = true
  · rw [if_pos hc]
    obtain ⟨cs, hcs⟩ :=
      castleCheck_ok w h prev board hpv hbd x y hx0 hx1 hy0 hy1
    rw [hcs]
    cases cs <;> exact ⟨_, rfl, rfl⟩
  · rw [if_neg hc]
    exact ⟨_, rfl, rfl⟩

/-- The reconstruction closure on one in-range square of well-formed grids:
    it succeeds, touches only that square of the grid and of the state, and
    writes `newTileF` there (updating the state exactly on a changed
    square). -/
theorem stepSquare_spec (w h : Nat) (prev : ParseBoard) (index : Nat)
    (state : List Tile) (board : ParseBoard)
    (hidx : index < w * h)
    (hst : gridOk (w * h) state)
    (hbd : gridOk (w * h) board.pieces)
    (hpv : gridOk (w * h) prev.pieces) :
    ∃ st' b', stepSquare w h prev index state board = .ok (st', b') ∧
      st'.length = state.length ∧
      b'.pieces.length = board.pieces.length ∧
      (∀ j, j ≠ index →
        st'.getD j Tile.void = state.getD j Tile.void ∧
        b'.pieces.getD j Tile.void = board.pieces.getD j Tile.void) ∧
      b'.pieces.getD index Tile.void =
        newTileF (board.pieces.getD index Tile.void)
          (state.getD index Tile.void) ∧
      st'.getD index Tile.void =
        (if kcEq (board.pieces.getD index Tile.void)
            (state.getD index Tile.void) = true
         then state.getD index Tile.void
         else newTileF (board.pieces.getD index Tile.void)
           (state.getD index Tile.void)) := by
  have hw : 0 < w := by
    rcases Nat.eq_zero_or_pos w with h0 | h0
    · rw [h0] at hidx; omega
    · exact h0
  have hbtnv : board.pieces.getD index Tile.void ≠ Tile.void := hbd.2 index hidx
  have hstnv : state.getD index Tile.void ≠ Tile.void := hst.2 index hidx
  have hcmp := cmpPieces_ok _ _ hbtnv hstnv
  have hidxb : index < board.pieces.length := by rw [hbd.1]; exact hidx
  have hidxs : index < state.length := by rw [hst.1]; exact hidx
  simp only [stepSquare]
  rw [hcmp]
  by_cases hkc : kcEq (board.pieces.getD index Tile.void)
      (state.getD index Tile.void) = true
  · rw [hkc]
    cases hbt : board.pieces.getD index Tile.void with
    | void => exact absurd hbt hbtnv
    | blank =>
      cases hst0 : state.getD index Tile.void with
      | void => exact absurd hst0 hstnv
      | piece q =>
        rw [hbt, hst0] at hkc
        exact absurd hkc (by simp [kcEq])
      | blank =>
        refine ⟨state, board, rfl, rfl, rfl, fun j _ => ⟨rfl, rfl⟩, ?_, ?_⟩
        · rw [hbt]
          rfl
        · rw [hst0]
          rfl
    | piece p =>
      cases hst0 : state.getD index Tile.void with
      | void => exact absurd hst0 hstnv
      | blank =>
        rw [hbt, hst0] at hkc
        exact absurd hkc (by simp [kcEq])
      | piece q =>
        rw [hbt, hst0] at hkc
        refine ⟨state,
          { board with pieces :=
              board.pieces.set index (Tile.piece { p with moved := q.moved }) },
          rfl, rfl, List.length_set board.pieces .., fun j hj => ⟨rfl, ?_⟩,
          ?_, ?_⟩
        · exact getD_set_of_ne board.pieces index j _ _ (fun he => hj he.symm)
        · rw [getD_set_self board.pieces index _ _ hidxb]
          unfold newTileF
          rw [hkc]
          rfl
        · simp [hst0]
          rw [← List.getD_eq_getElem?_getD]
          exact hst0
  · have hkc' : kcEq (board.pieces.getD index Tile.void)
        (state.getD index Tile.void) = false := by
      revert hkc
      cases kcEq (board.pieces.getD index Tile.void)
        (state.getD index Tile.void) <;> simp
    rw [hkc']
    cases hbt : board.pieces.getD index Tile.void with
    | void => exact absurd hbt hbtnv
    | blank =>
      simp only [stepSquareDiff]
      refine ⟨state.set index Tile.blank, board, rfl,
        List.length_set state .., rfl, fun j hj => ⟨?_, rfl⟩, ?_, ?_⟩
      · exact getD_set_of_ne state index j _ _ (fun he => hj he.symm)
      · rw [hbt]
        rw [hbt] at hkc'
        unfold newTileF
        rw [hkc']
        rfl
      · rw [getD_set_self state index _ _ hidxs]
        rw [hbt] at hkc'
        simp only [Bool.false_eq_true, if_false, ite_false]
        unfold newTileF
        rw [hkc']
        rfl
    | piece p =>
      obtain ⟨b2, hb2, hb2p⟩ := castleUpdate_ok w h prev
        ((index % w : Nat) : Int) ((index / w : Nat) : Int)
        { p with moved := true }
        (epUpdate w h prev ((index % w : Nat) : Int) ((index / w : Nat) : Int)
          { p with moved := true } board)
        hpv
        (by
          rw [gridOk, epUpdate_pieces]
          exact ⟨hbd.1, hbd.2⟩)
        (by positivity)
        (by
          have : index % w < w := Nat.mod_lt index hw
          exact_mod_cast this)
        (by positivity)
        (by
          have : index / w < h := by
            rw [Nat.div_lt_iff_lt_mul hw, Nat.mul_comm]
            exact hidx
          exact_mod_cast this)
      simp only [stepSquareDiff]
      rw [hb2]
      refine ⟨state.set index (Tile.piece { p with moved := true }),
        { b2 with pieces :=
            b2.pieces.set index (Tile.piece { p with moved := true }) },
        rfl, List.length_set state .., ?_, fun j hj => ⟨?_, ?_⟩, ?_, ?_⟩
      · rw [List.length_set, hb2p, epUpdate_pieces]
      · exact getD_set_of_ne state index j _ _ (fun he => hj he.symm)
      · rw [getD_set_of_ne b2.pieces index j _ _ (fun he => hj he.symm),
          hb2p, epUpdate_pieces]
      · rw [getD_set_self b2.pieces index _ _ (by
          rw [hb2p, epUpdate_pieces]; exact hidxb)]
        rw [hbt] at hkc'
        unfold newTileF
        rw [hkc']
        rfl
      · rw [getD_set_self state index _ _ hidxs]
        rw [hbt] at hkc'
        simp only [Bool.false_eq_true, if_false, ite_false]
        unfold newTileF
        rw [hkc']
        rfl

/-- The closure over a duplicate-free list of in-range squares: it succeeds
    and each listed square holds `newTileF` of its original tiles, the rest
    being untouched. -/
theorem stepBoardAux_spec (w h : Nat) (prev : ParseBoard)
    (hpv : gridOk (w * h) prev.pieces) :
    ∀ (L : List Nat) (state : List Tile) (board : ParseBoard),
      (∀ i ∈ L, i < w * h) → L.Nodup →
      gridOk (w * h) state → gridOk (w * h) board.pieces →
      ∃ st' b', stepBoardAux w h prev L state board = .ok (st', b') ∧
        gridOk (w * h) st' ∧ gridOk (w * h) b'.pieces ∧
        (∀ j, j ∉ L →
          st'.getD j Tile.void = state.getD j Tile.void ∧
          b'.pieces.getD j Tile.void = board.pieces.getD j Tile.void) ∧
        (∀ j ∈ L,
          b'.pieces.getD j Tile.void =
            newTileF (board.pieces.getD j Tile.void)
              (state.getD j Tile.void) ∧
          st'.getD j Tile.void =
            (if kcEq (board.pieces.getD j Tile.void)
                (state.getD j Tile.void) = true
             then state.getD j Tile.void
             else newTileF (board.pieces.getD j Tile.void)
               (state.getD j Tile.void))) := by
  intro L
  induction L with
  | nil =>
    intro state board _ _ hst hbd
    exact ⟨state, board, rfl, hst, hbd, fun j _ => ⟨rfl, rfl⟩,
      fun j hj => absurd hj (List.not_mem_nil j)⟩
  | cons i L' ih =>
    intro state board hmem hnd hst hbd
    obtain ⟨hni, hnd'⟩ := List.nodup_cons.mp hnd
    obtain ⟨st1, b1, heq, hlen1, hlen1b, hunch1, hnew1b, hnew1s⟩ :=
      stepSquare_spec w h prev i state board (hmem i (List.mem_cons_self i L'))
        hst hbd hpv
    have hst1 : gridOk (w * h) st1 := by
      refine ⟨by rw [hlen1, hst.1], ?_⟩
      intro j hj
      by_cases hji : j = i
      · subst hji
        rw [hnew1s]
        split
        · exact hst.2 j hj
        · exact newTileF_ne_void _ _ (hbd.2 j hj)
      · rw [(hunch1 j hji).1]
        exact hst.2 j hj
    have hb1 : gridOk (w * h) b1.pieces := by
      refine ⟨by rw [hlen1b, hbd.1], ?_⟩
      intro j hj
      by_cases hji : j = i
      · subst hji
        rw [hnew1b]
        exact newTileF_ne_void _ _ (hbd.2 j hj)
      · rw [(hunch1 j hji).2]
        exact hbd.2 j hj
    obtain ⟨st', b', heq2, hstf, hbdf, hunch2, hnew2⟩ :=
      ih st1 b1 (fun j hj => hmem j (List.mem_cons_of_mem i hj)) hnd' hst1 hb1
    refine ⟨st', b', ?_, hstf, hbdf, ?_, ?_⟩
    · simp only [stepBoardAux]
      rw [heq]
      exact heq2
    · intro j hj
      have hji : j ≠ i := fun he => hj (he ▸ List.mem_cons_self i L')
      have hjL : j ∉ L' := fun he => hj (List.mem_cons_of_mem i he)
      obtain ⟨hs2, hb2⟩ := hunch2 j hjL
      obtain ⟨hs1, hb1u⟩ := hunch1 j hji
      exact ⟨hs2.trans hs1, hb2.trans hb1u⟩
    · intro j hj
      rcases List.mem_cons.mp hj with rfl | hjL
      · obtain ⟨hs2, hb2⟩ := hunch2 j hni
        refine ⟨?_, ?_⟩
        · rw [hb2, hnew1b]
        · rw [hs2, hnew1s]
      · have hji : j ≠ i := fun he => hni (he ▸ hjL)
        obtain ⟨hbF, hsF⟩ := hnew2 j hjL
        obtain ⟨hs1, hb1u⟩ := hunch1 j hji
        refine ⟨?_, ?_⟩
        · rw [hbF, hb1u, hs1]
        · rw [hsF, hs1, hb1u]

/-- One application of the closure to a whole board. -/
theorem stepBoard_spec (w h : Nat) (prev : ParseBoard)
    (hpv : gridOk (w * h) prev.pieces) (state : List Tile)
    (board : ParseBoard) (hst : gridOk (w * h) state)
    (hbd : gridOk (w * h) board.pieces) :
    ∃ st' b', stepBoard w h prev state board = .ok (st', b') ∧
      gridOk (w * h) st' ∧ gridOk (w * h) b'.pieces ∧
      ∀ j < w * h,
        b'.pieces.getD j Tile.void =
          newTileF (board.pieces.getD j Tile.void)
            (state.getD j Tile.void) ∧
        st'.getD j Tile.void =
          (if kcEq (board.pieces.getD j Tile.void)
              (state.getD j Tile.void) = true
           then state.getD j Tile.void
           else newTileF (board.pieces.getD j Tile.void)
             (state.getD j Tile.void)) := by
  obtain ⟨st', b', heq, hstf, hbdf, _, hnew⟩ :=
    stepBoardAux_spec w h prev hpv (List.range (w * h)) state board
      (fun i hi => List.mem_range.mp hi) (List.nodup_range (w * h)) hst hbd
  exact ⟨st', b', heq, hstf, hbdf,
    fun j hj => hnew j (List.mem_range.mpr hj)⟩

/-- Clearing the moved flag deserves a non-Void tile. -/
theorem clearMoved_ne_void (t : Tile) (h : t ≠ Tile.void) :
    clearMoved t ≠ Tile.void := by
  cases t <;> simp_all [clearMoved]

/-- `initialTile` succeeds on a non-Void tile. -/
theorem initialTile_ok (t : Tile) (h : t ≠ Tile.void) :
    initialTile t = .ok (clearMoved t) := by
  cases t <;> first | rfl | exact absurd rfl h

/-- The `initial_state` loop on a list of non-Void squares. -/
theorem initialStateAux_spec (b : ParseBoard) :
    ∀ L : List Nat, (∀ i ∈ L, b.pieces.getD i Tile.void ≠ Tile.void) →
      initialStateAux b L =
        .ok (L.map (fun i => clearMoved (b.pieces.getD i Tile.void))) := by
  intro L
  induction L with
  | nil => intro _; rfl
  | cons i L' ih =>
    intro hmem
    simp only [initialStateAux]
    rw [initialTile_ok _ (hmem i (List.mem_cons_self i L')),
      ih (fun j hj => hmem j (List.mem_cons_of_mem i hj))]
    rfl

/-- The `initial_state` construction succeeds on a well-formed first board
    and clears every square's moved flag. -/
theorem initialState_spec (size : Nat) (b : ParseBoard)
    (hb : gridOk size b.pieces) :
    ∃ st0, initialState size b = .ok st0 ∧ gridOk size st0 ∧
      ∀ i < size,
        st0.getD i Tile.void = clearMoved (b.pieces.getD i Tile.void) := by
  refine ⟨(List.range size).map
      (fun i => clearMoved (b.pieces.getD i Tile.void)), ?_, ?_, ?_⟩
  · exact initialStateAux_spec b (List.range size)
      (fun i hi => hb.2 i (List.mem_range.mp hi))
  · constructor
    · simp
    · intro i hi
      have : ((List.range size).map
          (fun i => clearMoved (b.pieces.getD i Tile.void))).getD i Tile.void =
          clearMoved (b.pieces.getD i Tile.void) := by
        rw [List.getD_eq_getElem?_getD, List.getElem?_map,
          List.getElem?_range hi]
        rfl
      rw [this]
      exact clearMoved_ne_void _ (hb.2 i hi)
  · intro i hi
    rw [List.getD_eq_getElem?_getD, List.getElem?_map, List.getElem?_range hi]
    rfl

/-- The reconstruction walk along a timeline: it succeeds on well-formed
    boards, and each square evolves by the pointwise `squareFold`. -/
theorem reconAux_spec (w h : Nat) :
    ∀ (boards : List ParseBoard) (st : List Tile) (prev : ParseBoard),
      gridOk (w * h) st → gridOk (w * h) prev.pieces →
      (∀ b ∈ boards, gridOk (w * h) b.pieces) →
      ∃ outs, reconAux w h st prev boards = .ok outs ∧
        outs.length = boards.length ∧
        ∀ i, i < w * h →
          outs.map (fun b => b.pieces.getD i Tile.void) =
            squareFold (st.getD i Tile.void)
              (boards.map (fun b => b.pieces.getD i Tile.void)) := by
  intro boards
  induction boards with
  | nil =>
    intro st prev _ _ _
    exact ⟨[], rfl, rfl, fun i _ => rfl⟩
  | cons b rest ih =>
    intro st prev hst hpv hall
    obtain ⟨st1, b1, heq, hst1, hb1, hpoint⟩ :=
      stepBoard_spec w h prev hpv st b hst (hall b (List.mem_cons_self b rest))
    obtain ⟨outs, heq2, hlen, hmap⟩ :=
      ih st1 b1 hst1 hb1 (fun c hc => hall c (List.mem_cons_of_mem b hc))
    refine ⟨b1 :: outs, ?_, by simp [hlen], ?_⟩
    · simp only [reconAux]
      rw [heq]
      show (do
        let rest' ← reconAux w h st1 b1 rest
        Except.ok (b1 :: rest')) = Except.ok (b1 :: outs)
      rw [heq2]
      rfl
    · intro i hi
      simp only [List.map_cons]
      rw [squareFold]
      rw [(hpoint i hi).1, hmap i hi, (hpoint i hi).2]

/-- The whole per-timeline reconstruction succeeds on well-formed boards and
    evolves each square by `squareFold`, seeded with the first board's
    cleared tile. -/
theorem reconstruct_spec (w h : Nat) (boards : List ParseBoard)
    (hall : ∀ b ∈ boards, gridOk (w * h) b.pieces) :
    ∃ outs, reconstruct w h boards = .ok outs ∧
      outs.length = boards.length ∧
      ∀ i, i < w * h →
        outs.map (fun b => b.pieces.getD i Tile.void) =
          squareFold
            (clearMoved ((boards.getD 0 emptyPB).pieces.getD i Tile.void))
            (boards.map (fun b => b.pieces.getD i Tile.void)) := by
  cases boards with
  | nil => exact ⟨[], rfl, rfl, fun i _ => rfl⟩
  | cons b0 rest =>
    have hb0 : gridOk (w * h) b0.pieces := hall b0 (List.mem_cons_self b0 rest)
    obtain ⟨st0, hst0eq, hst0ok, hst0i⟩ := initialState_spec (w * h) b0 hb0
    obtain ⟨outs, heqA, hlenA, hmapA⟩ :=
      reconAux_spec w h (b0 :: rest) st0 b0 hst0ok hb0 hall
    refine ⟨outs, ?_, hlenA, ?_⟩
    · simp only [reconstruct]
      rw [hst0eq]
      exact heqA
    · intro i hi
      rw [hmapA i hi, hst0i i hi]
      rfl

/-- `getD` through a map, below the length. -/
theorem getD_map_lt {α β : Type} (l : List α) (f : α → β) (n : Nat)
    (hn : n < l.length) (d : α) (e : β) :
    (l.map f).getD n e = f (l.getD n d) := by
  rw [List.getD_eq_getElem?_getD, List.getElem?_map,
    List.getElem?_eq_getElem hn, List.getD_eq_getElem?_getD,
    List.getElem?_eq_getElem hn]
  rfl

/-- The square evolution preserves each board's kind and color. -/
theorem squareFold_kc :
    ∀ (bts : List Tile) (st : Tile), (∀ bt ∈ bts, bt ≠ Tile.void) →
      ∀ m, m < bts.length →
        kcEq ((squareFold st bts).getD m Tile.void)
          (bts.getD m Tile.void) = true := by
  intro bts
  induction bts with
  | nil => intro st _ m hm; simp at hm
  | cons bt rest ih =>
    intro st h3 m hm
    cases m with
    | zero =>
      show kcEq (newTileF bt st) bt = true
      exact newTileF_kc bt st (h3 bt (List.mem_cons_self bt rest))
    | succ m' =>
      show kcEq ((squareFold (if kcEq bt st then st else newTileF bt st)
          rest).getD m' Tile.void) (rest.getD m' Tile.void) = true
      exact ih _ (fun t ht => h3 t (List.mem_cons_of_mem bt ht)) m'
        (by simpa using Nat.lt_of_succ_lt_succ hm)

/-- Preservation of the square evolution is never Void. -/
theorem squareFold_ne_void :
    ∀ (bts : List Tile) (st : Tile), (∀ bt ∈ bts, bt ≠ Tile.void) →
      ∀ m, m < bts.length →
        (squareFold st bts).getD m Tile.void ≠ Tile.void := by
  intro bts st h3 m hm
  intro hv
  have := squareFold_kc bts st h3 m hm
  rw [hv] at this
  simp [kcEq] at this

/-- The moved flag computed by the square evolution: a written piece has
    `moved = false` exactly when the seed allowed it and the square's
    (kind, color) never changed along the walk so far. -/
theorem squareFold_moved :
    ∀ (bts : List Tile) (st prevT : Tile) (H : Prop),
      kcEq st prevT = true →
      (∀ q, st = Tile.piece q → (q.moved = false ↔ H)) →
      (∀ bt ∈ bts, bt ≠ Tile.void) →
      ∀ m, m < bts.length → ∀ p,
        (squareFold st bts).getD m Tile.void = Tile.piece p →
        (p.moved = false ↔
          (H ∧ ∀ j, j ≤ m →
            kcEq ((prevT :: bts).getD j Tile.void)
              ((prevT :: bts).getD (j + 1) Tile.void) = true)) := by
  intro bts
  induction bts with
  | nil => intro st prevT H _ _ _ m hm; simp at hm
  | cons bt rest ih =>
    intro st prevT H h1 h2 h3 m hm p hp
    have hbtnv : bt ≠ Tile.void := h3 bt (List.mem_cons_self bt rest)
    cases m with
    | zero =>
      have hp0 : newTileF bt st = Tile.piece p := hp
      by_cases hkc : kcEq bt st = true
      · have hpb : kcEq prevT bt = true :=
          kcEq_trans prevT st bt (kcEq_symm st prevT h1) (kcEq_symm bt st hkc)
        cases bt with
        | void => exact absurd rfl hbtnv
        | blank =>
          cases hst : st with
          | piece q => rw [hst] at hkc; simp [kcEq] at hkc
          | void => rw [hst] at hkc; simp [kcEq] at hkc
          | blank =>
            rw [hst] at hp0
            unfold newTileF at hp0
            rw [show kcEq Tile.blank Tile.blank = true from rfl] at hp0
            exact absurd hp0 (by simp)
        | piece pb =>
          cases hst : st with
          | void => rw [hst] at hkc; simp [kcEq] at hkc
          | blank => rw [hst] at hkc; simp [kcEq] at hkc
          | piece q =>
            rw [hst] at hp0 hkc
            unfold newTileF at hp0
            rw [hkc] at hp0
            have hmp : Tile.piece { pb with moved := q.moved } = Tile.piece p :=
              hp0
            obtain rfl := Tile.piece.inj hmp
            constructor
            · intro hpm
              refine ⟨(h2 q hst).mp hpm, ?_⟩
              intro j hj
              have hj0 : j = 0 := by omega
              subst hj0
              exact hpb
            · rintro ⟨hH, _⟩
              exact (h2 q hst).mpr hH
      · have hkcf : kcEq bt st = false := by
          revert hkc; cases kcEq bt st <;> simp
        cases bt with
        | void => exact absurd rfl hbtnv
        | blank =>
          unfold newTileF at hp0
          rw [hkcf] at hp0
          exact absurd hp0 (by simp)
        | piece pb =>
          unfold newTileF at hp0
          rw [hkcf] at hp0
          have hmp : Tile.piece { pb with moved := true } = Tile.piece p := hp0
          obtain rfl := Tile.piece.inj hmp
          constructor
          · intro hpm
            exact absurd hpm (by simp)
          · rintro ⟨hH, hch⟩
            have h0 := hch 0 (Nat.zero_le 0)
            have hcontr : kcEq (Tile.piece pb) st = true :=
              kcEq_trans (Tile.piece pb) prevT st
                (kcEq_symm prevT (Tile.piece pb) h0) (kcEq_symm st prevT h1)
            rw [hkcf] at hcontr
            exact absurd hcontr (by simp)
    | succ m' =>
      have hp' : (squareFold (if kcEq bt st then st else newTileF bt st)
          rest).getD m' Tile.void = Tile.piece p := hp
      have hm' : m' < rest.length := by simpa using Nat.lt_of_succ_lt_succ hm
      have hyp1 : kcEq (if kcEq bt st then st else newTileF bt st) bt = true := by
        by_cases hkc : kcEq bt st = true
        · rw [if_pos hkc]
          exact kcEq_symm bt st hkc
        · rw [if_neg hkc]
          exact newTileF_kc bt st hbtnv
      have hyp2 : ∀ q, (if kcEq bt st then st else newTileF bt st) =
          Tile.piece q → (q.moved = false ↔ (H ∧ kcEq prevT bt = true)) := by
        intro q hq
        by_cases hkc : kcEq bt st = true
        · rw [if_pos hkc] at hq
          have hpb : kcEq prevT bt = true :=
            kcEq_trans prevT st bt (kcEq_symm st prevT h1) (kcEq_symm bt st hkc)
          constructor
          · intro hqm
            exact ⟨(h2 q hq).mp hqm, hpb⟩
          · rintro ⟨hH, _⟩
            exact (h2 q hq).mpr hH
        · rw [if_neg hkc] at hq
          have hkcf : kcEq bt st = false := by
            revert hkc; cases kcEq bt st <;> simp
          cases bt with
          | void => exact absurd rfl hbtnv
          | blank =>
            unfold newTileF at hq
            rw [hkcf] at hq
            exact absurd hq (by simp)
          | piece pb =>
            unfold newTileF at hq
            rw [hkcf] at hq
            have hmq : Tile.piece { pb with moved := true } = Tile.piece q := hq
            obtain rfl := Tile.piece.inj hmq
            constructor
            · intro hqm
              exact absurd hqm (by simp)
            · rintro ⟨hH, h0⟩
              have hcontr : kcEq (Tile.piece pb) st = true :=
                kcEq_trans (Tile.piece pb) prevT st
                  (kcEq_symm prevT (Tile.piece pb) h0) (kcEq_symm st prevT h1)
              rw [hkcf] at hcontr
              exact absurd hcontr (by simp)
      have hyp3 : ∀ t ∈ rest, t ≠ Tile.void :=
        fun t ht => h3 t (List.mem_cons_of_mem bt ht)
      have hihc := ih (if kcEq bt st then st else newTileF bt st) bt
        (H ∧ kcEq prevT bt = true) hyp1 hyp2 hyp3 m' hm' p hp'
      rw [hihc]
      constructor
      · rintro ⟨⟨hH, h0⟩, hch⟩
        refine ⟨hH, ?_⟩
        intro j hj
        cases j with
        | zero => exact h0
        | succ j' => exact hch j' (by omega)
      · rintro ⟨hH, hch⟩
        refine ⟨⟨hH, hch 0 (by omega)⟩, ?_⟩
        intro j hj
        exact hch (j + 1) (by omega)

/-- An in-range `getD` is a member of the list. -/
theorem getD_mem {α : Type} (l : List α) (i : Nat) (d : α)
    (h : i < l.length) : l.getD i d ∈ l := by
  rw [List.getD_eq_getElem?_getD, List.getElem?_eq_getElem h]
  exact List.getElem_mem h

/-- `de_piece` never produces a Void tile. -/
theorem de_piece_ne_void (v : Nat) : de_piece v ≠ Tile.void := by
  rcases de_piece_blank_or_moved v with h | ⟨p, h, _⟩ <;> rw [h] <;> simp

/-- Deserialized boards of full-size raw states are well-formed grids. -/
theorem deserialize_gridOk (w h : Nat) (states : List (List Nat))
    (hlen : ∀ raw ∈ states, raw.length = w * h) :
    ∀ b ∈ deserializeBoards states, gridOk (w * h) b.pieces := by
  intro b hb
  rcases List.mem_map.mp hb with ⟨raw, hraw, rfl⟩
  refine ⟨by simp [hlen raw hraw], ?_⟩
  intro i hi
  have hi' : i < (raw.map de_piece).length := by
    simp [hlen raw hraw]
    exact hi
  have hmem := getD_mem (raw.map de_piece) i Tile.void hi'
  rcases List.mem_map.mp hmem with ⟨v, _, hv⟩
  rw [← hv]
  exact de_piece_ne_void v

/-- Clearing the moved flag keeps the kind and color. -/
theorem clearMoved_kc (t : Tile) (h : t ≠ Tile.void) :
    kcEq (clearMoved t) t = true := by
  cases t <;> simp_all [clearMoved, kcEq]

/-- C8, amended: with every raw board of full size W·H (so that, `de_piece`
    producing no Void, every grid is Void-free), the JSON parse pipeline
    never reaches the `panic!("Void in board!")` branches of `cmp_pieces`
    or of the initial-state construction: the per-timeline parse always
    returns a typed `ok` value, listed or not. -/
theorem C8_parse_no_panic (w h : Nat) (listed : Bool)
    (states : List (List Nat))
    (hlen : ∀ raw ∈ states, raw.length = w * h) :
    ∃ bs, parseTimeline w h listed states = Except.ok bs := by
  cases listed
  · exact ⟨deserializeBoards states, rfl⟩
  · obtain ⟨outs, heq, _, _⟩ :=
      reconstruct_spec w h (deserializeBoards states)
        (deserialize_gridOk w h states hlen)
    exact ⟨outs, by simpa [parseTimeline] using heq⟩

/-- C8, witness: the listed singleton timeline `[[1]]` parses to an `ok`
    value. -/
theorem C8_witness : ∃ bs, parseTimeline 1 1 true [[1]] = Except.ok bs :=
  C8_parse_no_panic 1 1 true [[1]] (by decide)

/-- C7, amended: after a successful parse of a listed timeline whose raw
    boards have full size, a square of board `n` holds a piece with
    `moved = false` iff the square's (kind, color) is unchanged at every
    step from the first board up to `n` — the flag is sticky, and on the
    first board itself it is always false. -/
theorem C7_moved_iff_never_changed (w h : Nat) (states : List (List Nat))
    (outs : List ParseBoard)
    (hlen : ∀ raw ∈ states, raw.length = w * h)
    (hok : parseTimeline w h true states = Except.ok outs) :
    outs.length = states.length ∧
    ∀ n i p, n < outs.length → i < w * h →
      (outs.getD n emptyPB).pieces.getD i Tile.void = Tile.piece p →
      (p.moved = false ↔
        ∀ j, j + 1 ≤ n →
          kcEq ((outs.getD j emptyPB).pieces.getD i Tile.void)
            ((outs.getD (j + 1) emptyPB).pieces.getD i Tile.void) = true) := by
  have hall := deserialize_gridOk w h states hlen
  have hrec : reconstruct w h (deserializeBoards states) = Except.ok outs := by
    simpa [parseTimeline] using hok
  obtain ⟨outs2, heq, hlen', hmap⟩ :=
    reconstruct_spec w h (deserializeBoards states) hall
  have houts : outs2 = outs := Except.ok.inj (heq.symm.trans hrec)
  rw [houts] at hlen' hmap
  have hblen : (deserializeBoards states).length = states.length := by
    simp [deserializeBoards]
  refine ⟨by rw [hlen', hblen], ?_⟩
  intro n i p hn hi hp
  have hnb : n < (deserializeBoards states).length := by
    rw [← hlen']
    exact hn
  have hmapi := hmap i hi
  have hbts_nv : ∀ t ∈ (deserializeBoards states).map
      (fun b => b.pieces.getD i Tile.void), t ≠ Tile.void := by
    intro t ht
    rcases List.mem_map.mp ht with ⟨b, hb, rfl⟩
    exact (hall b hb).2 i hi
  have hnb' : n < ((deserializeBoards states).map
      (fun b => b.pieces.getD i Tile.void)).length := by simpa using hnb
  have hb0 : (deserializeBoards states).getD 0 emptyPB ∈
      deserializeBoards states :=
    getD_mem (deserializeBoards states) 0 emptyPB (by omega)
  have hb0nv : ((deserializeBoards states).getD 0 emptyPB).pieces.getD i
      Tile.void ≠ Tile.void := (hall _ hb0).2 i hi
  have hyp1 : kcEq
      (clearMoved (((deserializeBoards states).getD 0 emptyPB).pieces.getD i
        Tile.void))
      (((deserializeBoards states).getD 0 emptyPB).pieces.getD i Tile.void) =
      true := clearMoved_kc _ hb0nv
  have hyp2 : ∀ q, clearMoved (((deserializeBoards states).getD 0
      emptyPB).pieces.getD i Tile.void) = Tile.piece q →
      (q.moved = false ↔ True) := by
    intro q hq
    cases hft : ((deserializeBoards states).getD 0 emptyPB).pieces.getD i
        Tile.void with
    | piece p0 =>
      rw [hft] at hq
      have hq' : Tile.piece { p0 with moved := false } = Tile.piece q := hq
      obtain rfl := Tile.piece.inj hq'
      exact ⟨fun _ => trivial, fun _ => rfl⟩
    | blank =>
      rw [hft] at hq
      exact absurd hq (by simp [clearMoved])
    | void =>
      rw [hft] at hq
      exact absurd hq (by simp [clearMoved])
  have hpsf : (squareFold
      (clearMoved (((deserializeBoards states).getD 0 emptyPB).pieces.getD i
        Tile.void))
      ((deserializeBoards states).map
        (fun b => b.pieces.getD i Tile.void))).getD n Tile.void =
      Tile.piece p := by
    rw [← hmapi, getD_map_lt outs (fun b => b.pieces.getD i Tile.void) n hn
      emptyPB Tile.void]
    exact hp
  have hiff := squareFold_moved
    ((deserializeBoards states).map (fun b => b.pieces.getD i Tile.void))
    _ (((deserializeBoards states).getD 0 emptyPB).pieces.getD i Tile.void)
    True hyp1 hyp2 hbts_nv n hnb' p hpsf
  rw [hiff]
  have hpres : ∀ j, j < (deserializeBoards states).length →
      kcEq ((outs.getD j emptyPB).pieces.getD i Tile.void)
        (((deserializeBoards states).map
          (fun b => b.pieces.getD i Tile.void)).getD j Tile.void) = true := by
    intro j hj
    have hj' : j < outs.length := by
      rw [hlen']
      exact hj
    have hout : ((outs.map (fun b => b.pieces.getD i Tile.void)).getD j
        Tile.void) = (outs.getD j emptyPB).pieces.getD i Tile.void :=
      getD_map_lt outs (fun b => b.pieces.getD i Tile.void) j hj' emptyPB
        Tile.void
    rw [← hout, hmapi]
    exact squareFold_kc _ _ hbts_nv j (by simpa using hj)
  have hbts0 : (((deserializeBoards states).map
      (fun b => b.pieces.getD i Tile.void)).getD 0 Tile.void) =
      ((deserializeBoards states).getD 0 emptyPB).pieces.getD i Tile.void :=
    getD_map_lt (deserializeBoards states) _ 0 (by omega) emptyPB Tile.void
  constructor
  · rintro ⟨_, hch⟩
    intro j hj
    have hcj : kcEq
        (((deserializeBoards states).map
          (fun b => b.pieces.getD i Tile.void)).getD j Tile.void)
        (((deserializeBoards states).map
          (fun b => b.pieces.getD i Tile.void)).getD (j + 1) Tile.void) =
        true := hch (j + 1) (by omega)
    have hpj := hpres j (by omega)
    have hpj1 := hpres (j + 1) (by omega)
    exact kcEq_trans _ _ _ (kcEq_trans _ _ _ hpj hcj) (kcEq_symm _ _ hpj1)
  · intro hch
    refine ⟨trivial, ?_⟩
    intro j hj
    cases j with
    | zero =>
      show kcEq
        (((deserializeBoards states).getD 0 emptyPB).pieces.getD i Tile.void)
        (((deserializeBoards states).map
          (fun b => b.pieces.getD i Tile.void)).getD 0 Tile.void) = true
      rw [hbts0]
      exact kcEq_refl _ hb0nv
    | succ j' =>
      show kcEq
        (((deserializeBoards states).map
          (fun b => b.pieces.getD i Tile.void)).getD j' Tile.void)
        (((deserializeBoards states).map
          (fun b => b.pieces.getD i Tile.void)).getD (j' + 1) Tile.void) = true
      have hchj := hch j' (by omega)
      have hpj := hpres j' (by omega)
      have hpj1 := hpres (j' + 1) (by omega)
      exact kcEq_trans _ _ _ (kcEq_trans _ _ _ (kcEq_symm _ _ hpj) hchj) hpj1

/-- The board a one-square white-pawn timeline parses to. -/
def pb1 : ParseBoard := ⟨[Tile.piece ⟨.pawn, true, false⟩], none, none⟩

/-- C7, witness: the listed timeline `[[1], [1]]` parses with the pawn's
    moved flag false on both boards, and the characterization holds on it. -/
theorem C7_witness :
    [pb1, pb1].length = [[1], [1]].length ∧
    ∀ n i p, n < [pb1, pb1].length → i < 1 * 1 →
      ([pb1, pb1].getD n emptyPB).pieces.getD i Tile.void = Tile.piece p →
      (p.moved = false ↔
        ∀ j, j + 1 ≤ n →
          kcEq (([pb1, pb1].getD j emptyPB).pieces.getD i Tile.void)
            (([pb1, pb1].getD (j + 1) emptyPB).pieces.getD i Tile.void) =
            true) :=
  C7_moved_iff_never_changed 1 1 [[1], [1]] [pb1, pb1] (by decide) rfl
